import Mathlib

/-!
# stickman: a terminal animation player

A shallow embedding of `stickman.c` / `stickman.h` and theorems about it.

* Bytes (`char`) are natural numbers; the code only copies and compares them.
* A `Frame` is the grid `char content[TERMINAL_HEIGHT][TERMINAL_WIDTH + 1]`, read as a
  function from a row and a column index to the byte stored there. The code only ever
  touches indices `row < TERMINAL_HEIGHT`, `col ≤ TERMINAL_WIDTH`.
* Output to `stdout` is the list of terminal operations emitted, in order.
* A file is the list of its bytes; a file that cannot be opened is `none`.
-/

namespace Stickman

/-! ## Constants of `stickman.h` -/

/-- Terminal width: `#define TERMINAL_WIDTH 80`. -/
def TERMINAL_WIDTH : Nat := 80

/-- Terminal height: `#define TERMINAL_HEIGHT 24`. -/
def TERMINAL_HEIGHT : Nat := 24

/-- Frame cap: `#define MAX_FRAMES 20`. -/
def MAX_FRAMES : Nat := 20

/-- Size of a path buffer: `#define MAX_FILENAME_LENGTH 512`. -/
def MAX_FILENAME_LENGTH : Nat := 512

/-- The bytes of an ASCII string literal. -/
def bytes (s : String) : List Nat := s.toList.map Char.toNat

/-- Directory of the frames: `#define ANIMATION_DIR "anim"`. -/
def ANIMATION_DIR : List Nat := bytes "anim"

/-- The space character `' '`. -/
def SPACE : Nat := 32

/-- The line feed `'\n'`. -/
def LF : Nat := 10

/-- The carriage return `'\r'`. -/
def CR : Nat := 13

/-- The string terminator `'\0'`. -/
def NUL : Nat := 0

/-! ## Frames -/

/-- The frame structure: `typedef struct { char content[24][81]; } Frame;`. -/
structure Frame where
  content : Nat → Nat → Nat

/-- The assignment `frame->content[row][col] = v`. -/
def Frame.set (f : Frame) (row col v : Nat) : Frame :=
  ⟨fun r c => if r = row ∧ c = col then v else f.content r c⟩

/-- The first `TERMINAL_WIDTH` cells of a row, as a list. -/
def Frame.row (f : Frame) (i : Nat) : List Nat :=
  (List.range TERMINAL_WIDTH).map (f.content i)

/-! ## The terminal -/

/-- What the program sends to `stdout`: a cursor-position escape sequence `ESC [ r ; c H`
(with the 1-based coordinates it carries), one character, or a flush of the stream. -/
inductive TermOp where
  | cup (row col : Nat)
  | putc (ch : Nat)
  | flush
  deriving DecidableEq, Repr

/-- The function `move_cursor`: `printf("\033[%d;%dH", row + 1, col + 1)`. -/
def move_cursor (row col : Nat) : List TermOp := [TermOp.cup (row + 1) (col + 1)]

/-- The libc call `putchar(ch)`. -/
def putchar (ch : Nat) : List TermOp := [TermOp.putc ch]

/-- The libc call `fflush(stdout)`. -/
def fflush : List TermOp := [TermOp.flush]

/-- The terminal surface, the external collaborator of the renderer: a cursor and the
character shown in each cell. -/
structure Surface where
  row : Nat
  col : Nat
  cells : Nat → Nat → Nat

/-- The effect of one operation on the terminal surface: a cursor-position sequence moves the
cursor to the 0-based cell it names, a character is written at the cursor, which then
advances by one column, and a flush changes nothing on the surface. -/
def Surface.step (s : Surface) : TermOp → Surface
  | TermOp.cup r c => { s with row := r - 1, col := c - 1 }
  | TermOp.putc ch =>
      { s with
        col := s.col + 1
        cells := fun r c => if r = s.row ∧ c = s.col then ch else s.cells r c }
  | TermOp.flush => s

/-- The operations applied to the terminal surface in order. -/
def Surface.run (s : Surface) : List TermOp → Surface
  | [] => s
  | op :: ops => (s.step op).run ops

/-- The `(row, column, character)` writes a terminal whose cursor is at `cur` performs when
it receives the operations: every character, with the cell it lands in. -/
def writesFrom : Nat × Nat → List TermOp → List (Nat × Nat × Nat)
  | _, [] => []
  | _, TermOp.cup r c :: ops => writesFrom (r - 1, c - 1) ops
  | cur, TermOp.putc ch :: ops => (cur.1, cur.2, ch) :: writesFrom (cur.1, cur.2 + 1) ops
  | cur, TermOp.flush :: ops => writesFrom cur ops

/-! ## Differential renderer -/

/-- The inner loop of `display_frame`, `for (col = ...; col < TERMINAL_WIDTH; col++)`,
with `n` iterations left to run from column `col`. -/
def display_frame_cols (current previous : Frame) (row : Nat) : Nat → Nat → List TermOp
  | 0, _ => []
  | n + 1, col =>
      (if current.content row col ≠ previous.content row col then
        move_cursor row col ++ putchar (current.content row col)
      else []) ++ display_frame_cols current previous row n (col + 1)

/-- The outer loop of `display_frame`, `for (row = ...; row < TERMINAL_HEIGHT; row++)`,
with `n` iterations left to run from row `row`. -/
def display_frame_rows (current previous : Frame) : Nat → Nat → List TermOp
  | 0, _ => []
  | n + 1, row =>
      display_frame_cols current previous row TERMINAL_WIDTH 0 ++
        display_frame_rows current previous n (row + 1)

/-- The function `display_frame`: both loops, then the flush. -/
def display_frame (current previous : Frame) : List TermOp :=
  display_frame_rows current previous TERMINAL_HEIGHT 0 ++ fflush

/-! ## Frame loader -/

/-- The libc call `strlen`: the number of bytes before the first NUL of the buffer. -/
def strlen : List Nat → Nat
  | [] => 0
  | b :: s => if b = NUL then 0 else strlen s + 1

/-- The characters one `fgets` call with room for `n` characters takes from the stream, and
the stream left after it: reading stops after a line feed, at the end of the stream, or when
`n` characters have been read. -/
def fgets_read : Nat → List Nat → List Nat × List Nat
  | 0, s => ([], s)
  | _ + 1, [] => ([], [])
  | n + 1, b :: s =>
      if b = LF then ([b], s)
      else (b :: (fgets_read n s).1, (fgets_read n s).2)

/-- The libc call `fgets(buffer, size, file)`: `none` (a NULL result) at the end of the
stream, and otherwise the buffer it filled, at most `size - 1` characters followed by a NUL,
with the stream left after the call. -/
def fgets (size : Nat) (stream : List Nat) : Option (List Nat × List Nat) :=
  match stream with
  | [] => none
  | _ :: _ =>
      some ((fgets_read (size - 1) stream).1 ++ [NUL], (fgets_read (size - 1) stream).2)

/-- The loop `while (len > 0 && (buffer[len - 1] == '\n' || buffer[len - 1] == '\r'))
buffer[--len] = '\0';` of `load_frame`: the buffer and `len` after it. -/
def strip_line_endings (buffer : List Nat) : Nat → List Nat × Nat
  | 0 => (buffer, 0)
  | len + 1 =>
      if buffer.getD len NUL = LF ∨ buffer.getD len NUL = CR then
        strip_line_endings (buffer.set len NUL) len
      else (buffer, len + 1)

/-- The libc call `memset(frame->content, v, sizeof(frame->content))`: every cell of the
grid, the terminator column included. -/
def memset_content (f : Frame) (v : Nat) : Frame :=
  ⟨fun r c => if r < TERMINAL_HEIGHT ∧ c < TERMINAL_WIDTH + 1 then v else f.content r c⟩

/-- The libc call `memset(frame->content[row], v, n)`. -/
def memset_row (f : Frame) (row v n : Nat) : Frame :=
  ⟨fun r c => if r = row ∧ c < n then v else f.content r c⟩

/-- The libc call `memcpy(frame->content[row], src, n)`. -/
def memcpy_row (f : Frame) (row : Nat) (src : List Nat) (n : Nat) : Frame :=
  ⟨fun r c => if r = row ∧ c < n then src.getD c NUL else f.content r c⟩

/-- The padding loop `for (j = ...; j < TERMINAL_WIDTH; j++) frame->content[i][j] = ' ';`
of `load_frame`, with `n` iterations left to run from column `j`. -/
def pad_row (row : Nat) : Nat → Nat → Frame → Frame
  | 0, _, f => f
  | n + 1, j, f => pad_row row n (j + 1) (f.set row j SPACE)

/-- The loop of `load_frame` that runs once `fgets` has returned NULL,
`for (; i < TERMINAL_HEIGHT; i++)`, with `n` iterations left to run from row `i`. -/
def fill_rows : Nat → Nat → Frame → Frame
  | 0, _, f => f
  | n + 1, i, f =>
      fill_rows n (i + 1) ((memset_row f i SPACE TERMINAL_WIDTH).set i TERMINAL_WIDTH NUL)

/-- The main loop of `load_frame`, `for (i = ...; i < TERMINAL_HEIGHT; i++)`, with `n`
iterations left to run from row `i` on what is left of the file. -/
def load_frame_rows : Nat → Nat → List Nat → Frame → Frame
  | 0, _, _, f => f
  | n + 1, i, file, f =>
      match fgets (TERMINAL_WIDTH * 2) file with
      | none => fill_rows (n + 1) i f
      | some (buffer, rest) =>
          let len := strlen buffer
          let stripped := strip_line_endings buffer len
          let copy_len := if stripped.2 < TERMINAL_WIDTH then stripped.2 else TERMINAL_WIDTH
          let f1 := memcpy_row f i stripped.1 copy_len
          let f2 := pad_row i (TERMINAL_WIDTH - copy_len) copy_len f1
          load_frame_rows n (i + 1) rest (f2.set i TERMINAL_WIDTH NUL)

/-- The function `load_frame`: the value it returns and the frame of the caller after the
call. The file system is `fopen`, which gives the bytes of the file with that name, or `none`
when it cannot be opened. The message of `perror` and the call of `fclose` are left out. -/
def load_frame (fopen : List Nat → Option (List Nat)) (filename : List Nat) (frame : Frame) :
    Int × Frame :=
  match fopen filename with
  | none => (0, frame)
  | some file => (1, load_frame_rows TERMINAL_HEIGHT 0 file (memset_content frame SPACE))

/-! ## Frame set loader -/

/-- The libc call `strcmp` on two strings given by their bytes (a string ends at its first
NUL, or where its list ends): the difference of the first two bytes that differ. -/
def strcmp : List Nat → List Nat → Int
  | [], [] => 0
  | [], b :: _ => (NUL : Int) - b
  | a :: _, [] => (a : Int) - NUL
  | a :: s, b :: t =>
      if a = b then (if a = NUL then 0 else strcmp s t) else (a : Int) - b

/-- The function `compare_filenames`, on the two strings its arguments point to. -/
def compare_filenames (a b : List Nat) : Int := strcmp a b

/-- The libc call `qsort` with a comparison function: the elements in ascending order of the
comparison. -/
def qsort {α : Type} (cmp : α → α → Int) (l : List α) : List α :=
  l.insertionSort (fun a b => cmp a b ≤ 0)

/-- The libc call `snprintf(buffer, size, "%s/%s", dir, name)`: the string left in the
buffer, cut to `size - 1` bytes. -/
def snprintf_path (size : Nat) (dir name : List Nat) : List Nat :=
  (dir ++ 47 :: name).take (size - 1)

/-- The environment of the process: the entries `readdir` yields for a directory, in the
order it yields them (`none` when `opendir` fails), the bytes of each file (`none` when
`fopen` fails), and whether the `malloc` call made while `frame_count` names are held
succeeds. -/
structure Env where
  opendir : List Nat → Option (List (List Nat))
  fopen : List Nat → Option (List Nat)
  malloc : Nat → Bool

/-- The loop `while ((entry = readdir(dir)) != NULL && *frame_count < MAX_FRAMES)` of
`load_animation_frames` on the entries not yet read, with `g` the names stored so far
(`*frame_count` is the length of `g`): whether every allocation succeeded, and the names
stored when the loop is left. -/
def read_entries (malloc : Nat → Bool) : List (List Nat) → List (List Nat) →
    Bool × List (List Nat)
  | [], g => (true, g)
  | d_name :: rest, g =>
      if g.length < MAX_FRAMES then
        if d_name.headD NUL ≠ 46 then
          if malloc g.length then
            read_entries malloc rest (g ++ [snprintf_path MAX_FILENAME_LENGTH ANIMATION_DIR d_name])
          else (false, g)
        else read_entries malloc rest g
      else (true, g)

/-- The loop `for (i = ...; i < *frame_count; i++)` of `load_animation_frames` on the names
from index `i` on: the value the function returns and the frames after the loop. -/
def load_each (fopen : List Nat → Option (List Nat)) : List (List Nat) → Nat →
    (Nat → Frame) → Int × (Nat → Frame)
  | [], _, frames => (1, frames)
  | name :: rest, i, frames =>
      if (load_frame fopen name (frames i)).1 = 0 then
        (0, Function.update frames i (load_frame fopen name (frames i)).2)
      else
        load_each fopen rest (i + 1)
          (Function.update frames i (load_frame fopen name (frames i)).2)

/-- The state `load_animation_frames` leaves: the value it returns, `*frame_count`, the
names in `g_filenames` and the array `frames`. -/
structure LoadResult where
  ret : Int
  frame_count : Nat
  g_filenames : List (List Nat)
  frames : Nat → Frame

/-- The function `load_animation_frames`, called with the array `frames` and with
`*frame_count` holding `frame_count`. The diagnostics it prints on `stderr` are left out. -/
def load_animation_frames (env : Env) (frames : Nat → Frame) (frame_count : Nat) :
    LoadResult :=
  match env.opendir ANIMATION_DIR with
  | none => ⟨0, frame_count, [], frames⟩
  | some entries =>
      match read_entries env.malloc entries [] with
      | (false, g) => ⟨0, g.length, g, frames⟩
      | (true, g) =>
          if g.length = 0 then ⟨0, 0, g, frames⟩
          else
            ⟨(load_each env.fopen (qsort compare_filenames g) 0 frames).1, g.length,
              qsort compare_filenames g,
              (load_each env.fopen (qsort compare_filenames g) 0 frames).2⟩

/-! ## Playback loop -/

/-- The loop `for (i = ...; i < TERMINAL_HEIGHT; i++) empty_frame.content[i][TERMINAL_WIDTH] =
'\0';` of `run_animation`, with `n` iterations left to run from row `i`. -/
def terminate_rows : Nat → Nat → Frame → Frame
  | 0, _, f => f
  | n + 1, i, f => terminate_rows n (i + 1) (f.set i TERMINAL_WIDTH NUL)

/-- The local `empty_frame` of `run_animation` once it is set up: `memset` to spaces, then
the terminator of each row. -/
def empty_frame : Frame :=
  terminate_rows TERMINAL_HEIGHT 0 (memset_content ⟨fun _ _ => NUL⟩ SPACE)

/-- Where the control of `run_animation` stands: at the test `while (g_running)`, inside
the body of the loop, or after the loop. -/
inductive Pc where
  | loop_test
  | in_tick
  | returned
  deriving DecidableEq, Repr

/-- The state of `run_animation`: the control point, the flag `g_running`, the frame
`previous_frame` points to, `current_frame_index`, what was sent to `stdout` so far, and the
number of ticks (passes of the loop body) completed so far. -/
structure Playback where
  pc : Pc
  g_running : Bool
  previous_frame : Frame
  current_frame_index : Nat
  out : List TermOp
  ticks : Nat

/-- What happens next: a signal is delivered, or the program takes its next step. -/
inductive Event where
  | signal
  | step
  deriving DecidableEq, Repr

/-- The function `handle_signal`: `g_running = false`. -/
def handle_signal (s : Playback) : Playback := { s with g_running := false }

/-- One step of `run_animation`: the test of the loop reads `g_running` once and enters the
body or leaves the loop; the body renders `frames[current_frame_index]` against
`previous_frame`, moves `previous_frame`, advances the index modulo `frame_count`, and
sleeps. -/
def run_animation_step (frames : Nat → Frame) (frame_count : Nat) (s : Playback) : Playback :=
  match s.pc with
  | Pc.loop_test =>
      if s.g_running then { s with pc := Pc.in_tick } else { s with pc := Pc.returned }
  | Pc.in_tick =>
      { pc := Pc.loop_test
        g_running := s.g_running
        previous_frame := frames s.current_frame_index
        current_frame_index := (s.current_frame_index + 1) % frame_count
        out := s.out ++ display_frame (frames s.current_frame_index) s.previous_frame
        ticks := s.ticks + 1 }
  | Pc.returned => s

/-- The state in which `run_animation` reaches its loop for the first time, with the value
`g_running` has then. -/
def run_animation_init (g_running : Bool) : Playback :=
  ⟨Pc.loop_test, g_running, empty_frame, 0, [], 0⟩

/-- The state `run_animation` reaches from a state through a sequence of events. -/
def run_animation_exec (frames : Nat → Frame) (frame_count : Nat) :
    Playback → List Event → Playback
  | s, [] => s
  | s, Event.signal :: es => run_animation_exec frames frame_count (handle_signal s) es
  | s, Event.step :: es =>
      run_animation_exec frames frame_count (run_animation_step frames frame_count s) es

/-! ## Auxiliary notions of the renderer proofs -/

/-- The cells of the grid where two frames differ, in row-major order. -/
def changed_cells (current previous : Frame) : List (Nat × Nat) :=
  (List.range' 0 TERMINAL_HEIGHT).flatMap (fun r =>
    ((List.range' 0 TERMINAL_WIDTH).filter
      (fun c => decide (current.content r c ≠ previous.content r c))).map (fun c => (r, c)))

/-- The operations that write the cells of a list from a frame, one after the other. -/
def cell_ops (current : Frame) (l : List (Nat × Nat)) : List TermOp :=
  l.flatMap (fun p => [TermOp.cup (p.1 + 1) (p.2 + 1), TermOp.putc (current.content p.1 p.2)])

/-- Row-major order of two cells: an earlier row, or the same row and an earlier column. -/
def row_major (a b : Nat × Nat) : Prop := a.1 < b.1 ∨ (a.1 = b.1 ∧ a.2 < b.2)

/-! ## Auxiliary notions of the loader proofs -/

/-- The stream left after `k` calls of `fgets` by `load_frame`. -/
def after_reads : Nat → List Nat → List Nat
  | 0, s => s
  | k + 1, s => after_reads k (fgets_read (TERMINAL_WIDTH * 2 - 1) s).2

/-- The cell of column `c` in the row `load_frame` builds when the stream left is `s`. -/
def row_cell (s : List Nat) (c : Nat) : Nat :=
  match fgets (TERMINAL_WIDTH * 2) s with
  | none => if c < TERMINAL_WIDTH then SPACE else NUL
  | some (buffer, _) =>
      if c < (strip_line_endings buffer (strlen buffer)).2 ∧ c < TERMINAL_WIDTH then
        buffer.getD c NUL
      else if c < TERMINAL_WIDTH then SPACE else NUL

/-- A printable character of the C locale (`isprint`): `0x20` to `0x7e`. -/
def printable (b : Nat) : Prop := 32 ≤ b ∧ b ≤ 126

/-- Whether a byte is printable can be computed. -/
instance printable_decidable (b : Nat) : Decidable (printable b) :=
  inferInstanceAs (Decidable (32 ≤ b ∧ b ≤ 126))

/-- A source of printable text: every byte is a printable character, a line feed, or a
carriage return that is followed by a line feed or by another carriage return, or that ends
the source. -/
def clean_text : List Nat → Prop
  | [] => True
  | b :: s =>
      (printable b ∨ b = LF ∨ (b = CR ∧ (s.headD LF = LF ∨ s.headD LF = CR))) ∧ clean_text s

/-- A frame whose cells all hold the byte `b`. -/
def const_frame (b : Nat) : Frame := ⟨fun _ _ => b⟩

/-- A file system whose every file holds the given bytes. -/
def one_file (file : List Nat) : List Nat → Option (List Nat) := fun _ => some file

/-! ## Auxiliary notions of the frame set loader proofs -/

/-- The string a buffer holds: its bytes before the first NUL. -/
def cstr : List Nat → List Nat
  | [] => []
  | b :: s => if b = NUL then [] else b :: cstr s

/-- Strict byte-wise lexicographic order of two strings. -/
def lex_lt (a b : List Nat) : Prop := List.Lex (fun x y : Nat => x < y) a b

/-- Whether one string comes before another can be computed. -/
instance lex_lt_decidable (a b : List Nat) : Decidable (lex_lt a b) :=
  inferInstanceAs (Decidable (List.Lex (fun x y : Nat => x < y) a b))

/-- The entries `load_animation_frames` selects: in the order `readdir` yields them, the
first `MAX_FRAMES` whose name does not begin with a dot. -/
def selected (entries : List (List Nat)) : List (List Nat) :=
  (entries.filter (fun n => decide (n.headD NUL ≠ 46))).take MAX_FRAMES

/-- An environment whose directory lists the given entries, in which every file can be
opened and is empty, and every allocation succeeds. -/
def listing_env (entries : List (List Nat)) : Env :=
  ⟨fun _ => some entries, fun _ => some [], fun _ => true⟩

/-- A frame array whose frames all hold the byte `b` in every cell. -/
def const_frames (b : Nat) : Nat → Frame := fun _ => ⟨fun _ _ => b⟩

/-! ## Auxiliary notions of the playback proofs -/

/-- The events of `k` ticks without a signal: two program steps for each tick. -/
def tick_events (k : Nat) : List Event := List.replicate (2 * k) Event.step

/-- The state of `run_animation` after `k` ticks without a signal. -/
def after_ticks (frames : Nat → Frame) (frame_count k : Nat) : Playback :=
  run_animation_exec frames frame_count (run_animation_init true) (tick_events k)

/-- The state after `n` program steps in a row. -/
def run_animation_steps (frames : Nat → Frame) (frame_count : Nat) : Nat → Playback → Playback
  | 0, s => s
  | n + 1, s => run_animation_steps frames frame_count n (run_animation_step frames frame_count s)

/-! ## Auxiliary notions of the later loader proofs -/

/-- An environment whose directory lists the given entries, in which the file of each path
holds the last byte of the path followed by a line feed, and every allocation succeeds. -/
def named_env (entries : List (List Nat)) : Env :=
  ⟨fun _ => some entries, fun p => some [p.getLastD NUL, LF], fun _ => true⟩

/-- The entries of a directory that holds the 21 one-letter names `a` to `u`. -/
def letters : List (List Nat) := (List.range 21).map (fun i => [97 + i])

/-- The lines of a source, cut after each line feed: every line ends with its line feed,
except the last one when the source does not end with a line feed. -/
def lines : List Nat → List (List Nat)
  | [] => []
  | b :: s =>
      if b = LF then [b] :: lines s
      else
        match lines s with
        | [] => [[b]]
        | l :: ls => (b :: l) :: ls

/-- The row a line stands for: the line without its whole trailing run of CR and LF bytes, cut
to its first `TERMINAL_WIDTH` bytes and padded with spaces on the right to that width. -/
def normalised_row (l : List Nat) : List Nat :=
  (l.rdropWhile (fun b => b == CR || b == LF)).take TERMINAL_WIDTH ++
    List.replicate
      (TERMINAL_WIDTH - ((l.rdropWhile (fun b => b == CR || b == LF)).take TERMINAL_WIDTH).length)
      SPACE

/-! # Theorems -/

set_option maxRecDepth 100000

/-! ## Differential renderer -/

theorem cell_ops_nil (current : Frame) : cell_ops current [] = [] := rfl

theorem cell_ops_cons (current : Frame) (p : Nat × Nat) (l : List (Nat × Nat)) :
    cell_ops current (p :: l) =
      TermOp.cup (p.1 + 1) (p.2 + 1) :: TermOp.putc (current.content p.1 p.2) ::
        cell_ops current l := rfl

theorem cell_ops_append (current : Frame) (l₁ l₂ : List (Nat × Nat)) :
    cell_ops current (l₁ ++ l₂) = cell_ops current l₁ ++ cell_ops current l₂ := by
  simp [cell_ops]

theorem display_frame_cols_eq (current previous : Frame) (row : Nat) (n col : Nat) :
    display_frame_cols current previous row n col =
      cell_ops current (((List.range' col n).filter
          (fun c => decide (current.content row c ≠ previous.content row c))).map
          (fun c => (row, c))) := by
  induction n generalizing col with
  | zero => simp [display_frame_cols, cell_ops]
  | succ n ih =>
    rw [display_frame_cols, ih, List.range'_succ, List.filter_cons]
    by_cases h : current.content row col = previous.content row col
    · simp [h]
    · simp [h, move_cursor, putchar, cell_ops]

theorem display_frame_rows_eq (current previous : Frame) (n row : Nat) :
    display_frame_rows current previous n row =
      cell_ops current ((List.range' row n).flatMap (fun r =>
        ((List.range' 0 TERMINAL_WIDTH).filter
          (fun c => decide (current.content r c ≠ previous.content r c))).map
          (fun c => (r, c)))) := by
  induction n generalizing row with
  | zero => simp [display_frame_rows, cell_ops]
  | succ n ih =>
    rw [display_frame_rows, ih, display_frame_cols_eq, List.range'_succ, List.flatMap_cons,
      cell_ops_append]

theorem display_frame_eq (current previous : Frame) :
    display_frame current previous =
      cell_ops current (changed_cells current previous) ++ [TermOp.flush] := by
  rw [display_frame, display_frame_rows_eq, changed_cells, fflush]

theorem mem_changed_cells (current previous : Frame) (r c : Nat) :
    (r, c) ∈ changed_cells current previous ↔
      r < TERMINAL_HEIGHT ∧ c < TERMINAL_WIDTH ∧ current.content r c ≠ previous.content r c := by
  simp only [changed_cells, List.mem_flatMap, List.mem_map, List.mem_filter, List.mem_range'_1,
    Prod.mk.injEq, decide_eq_true_eq]
  constructor
  · rintro ⟨a, ha, b, ⟨hb, hd⟩, rfl, rfl⟩
    exact ⟨by omega, by omega, hd⟩
  · rintro ⟨hr, hc, hd⟩
    exact ⟨r, by omega, c, ⟨by omega, hd⟩, rfl, rfl⟩

theorem changed_cells_pairwise (current previous : Frame) :
    (changed_cells current previous).Pairwise row_major := by
  rw [changed_cells, List.pairwise_flatMap]
  constructor
  · intro r _
    rw [List.pairwise_map]
    exact ((List.pairwise_lt_range' 0 TERMINAL_WIDTH).filter _).imp
      (fun h => Or.inr ⟨rfl, h⟩)
  · refine (List.pairwise_lt_range' 0 TERMINAL_HEIGHT).imp ?_
    intro a b hab x hx y hy
    simp only [List.mem_map] at hx hy
    obtain ⟨_, _, rfl⟩ := hx
    obtain ⟨_, _, rfl⟩ := hy
    exact Or.inl hab

theorem changed_cells_nodup (current previous : Frame) :
    (changed_cells current previous).Nodup :=
  (changed_cells_pairwise current previous).imp (by
    intro a b h hab
    subst hab
    rcases h with h | ⟨_, h⟩ <;> exact absurd h (lt_irrefl _))

theorem writesFrom_cell_ops (current : Frame) (l : List (Nat × Nat)) (rest : List TermOp)
    (hrest : ∀ q, writesFrom q rest = []) (cur : Nat × Nat) :
    writesFrom cur (cell_ops current l ++ rest) =
      l.map (fun p => (p.1, p.2, current.content p.1 p.2)) := by
  induction l generalizing cur with
  | nil => simpa [cell_ops] using hrest cur
  | cons p l ih =>
    rw [cell_ops_cons]
    show (p.1 + 1 - 1, p.2 + 1 - 1, current.content p.1 p.2) ::
        writesFrom (p.1 + 1 - 1, p.2 + 1 - 1 + 1) (cell_ops current l ++ rest) = _
    rw [ih, Nat.add_sub_cancel, Nat.add_sub_cancel, List.map_cons]

theorem writesFrom_display_frame (current previous : Frame) (cur : Nat × Nat) :
    writesFrom cur (display_frame current previous) =
      (changed_cells current previous).map (fun p => (p.1, p.2, current.content p.1 p.2)) := by
  rw [display_frame_eq]
  exact writesFrom_cell_ops current _ [TermOp.flush] (fun q => rfl) cur

theorem run_cell_ops (current : Frame) (l : List (Nat × Nat)) (s : Surface) (r c : Nat) :
    ((s.run (cell_ops current l)).cells r c) =
      if (r, c) ∈ l then current.content r c else s.cells r c := by
  induction l generalizing s with
  | nil => simp [cell_ops, Surface.run]
  | cons p l ih =>
    rw [cell_ops_cons, Surface.run, Surface.run, ih]
    simp only [Surface.step, Nat.add_sub_cancel, List.mem_cons]
    by_cases hl : (r, c) ∈ l
    · simp [hl]
    · by_cases hp : (r, c) = p
      · subst hp; simp
      · have : ¬ (r = p.1 ∧ c = p.2) := fun h => hp (Prod.ext h.1 h.2)
        simp [hl, hp, this]

theorem run_append (s : Surface) (l₁ l₂ : List TermOp) :
    s.run (l₁ ++ l₂) = (s.run l₁).run l₂ := by
  induction l₁ generalizing s with
  | nil => rfl
  | cons op l ih => simp [Surface.run, ih]

theorem run_display_frame (current previous : Frame) (s : Surface) (r c : Nat) :
    ((s.run (display_frame current previous)).cells r c) =
      if (r, c) ∈ changed_cells current previous then current.content r c else s.cells r c := by
  rw [display_frame_eq, run_append, ← run_cell_ops current _ s r c]
  rfl

/-- C1: if the terminal surface shows `previous` in all 24 x 80 cells, then after the
operations emitted by `display_frame current previous` are applied to it in order, the
surface shows `current` in every one of those cells. -/
theorem display_frame_shows_current (previous current : Frame) (s : Surface)
    (h : ∀ r c, r < TERMINAL_HEIGHT → c < TERMINAL_WIDTH →
      s.cells r c = previous.content r c) :
    ∀ r c, r < TERMINAL_HEIGHT → c < TERMINAL_WIDTH →
      (s.run (display_frame current previous)).cells r c = current.content r c := by
  intro r c hr hc
  rw [run_display_frame]
  split
  · rfl
  · next hn =>
    rw [mem_changed_cells] at hn
    rw [h r c hr hc]
    by_contra hne
    exact hn ⟨hr, hc, fun e => hne e.symm⟩

/-- Witness of C1: a blank screen, a blank previous frame and a current frame with one `o`. -/
theorem display_frame_shows_current_witness :
    (∀ r c, r < TERMINAL_HEIGHT → c < TERMINAL_WIDTH →
      (Surface.mk 0 0 (fun _ _ => SPACE)).cells r c = (Frame.mk (fun _ _ => SPACE)).content r c) ∧
    ((Surface.mk 0 0 (fun _ _ => SPACE)).run
      (display_frame (Frame.mk (fun r c => if r = 1 ∧ c = 2 then 111 else SPACE))
        (Frame.mk (fun _ _ => SPACE)))).cells 1 2 = 111 :=
  ⟨fun _ _ _ _ => rfl,
    display_frame_shows_current (Frame.mk (fun _ _ => SPACE))
      (Frame.mk (fun r c => if r = 1 ∧ c = 2 then 111 else SPACE))
      (Surface.mk 0 0 (fun _ _ => SPACE)) (fun _ _ _ _ => rfl) 1 2 (by decide) (by decide)⟩

/-- C2: the operations `display_frame` emits are one cursor move and one character per
write, then the flush; the writes are exactly the cells `(row, col)` with `row < 24` and
`col < 80` where the two frames differ, each carrying `current[row][col]`, in strictly
ascending row-major order (so each cell is written once); their number is the number of
differing cells; and two frames that differ in exactly one cell give exactly one write, at
that cell, with that character. -/
theorem display_frame_writes (previous current : Frame) (cur : Nat × Nat) :
    display_frame current previous =
        (writesFrom cur (display_frame current previous)).flatMap
          (fun w => [TermOp.cup (w.1 + 1) (w.2.1 + 1), TermOp.putc w.2.2]) ++ [TermOp.flush] ∧
    (∀ r c ch, (r, c, ch) ∈ writesFrom cur (display_frame current previous) ↔
      r < TERMINAL_HEIGHT ∧ c < TERMINAL_WIDTH ∧
        current.content r c ≠ previous.content r c ∧ ch = current.content r c) ∧
    (writesFrom cur (display_frame current previous)).Pairwise
      (fun a b => a.1 < b.1 ∨ (a.1 = b.1 ∧ a.2.1 < b.2.1)) ∧
    (writesFrom cur (display_frame current previous)).length =
      ((Finset.range TERMINAL_HEIGHT ×ˢ Finset.range TERMINAL_WIDTH).filter
        (fun p => current.content p.1 p.2 ≠ previous.content p.1 p.2)).card ∧
    (∀ r₀ c₀, r₀ < TERMINAL_HEIGHT → c₀ < TERMINAL_WIDTH →
      (∀ r c, r < TERMINAL_HEIGHT → c < TERMINAL_WIDTH →
        (current.content r c ≠ previous.content r c ↔ r = r₀ ∧ c = c₀)) →
      writesFrom cur (display_frame current previous) = [(r₀, c₀, current.content r₀ c₀)]) := by
  rw [writesFrom_display_frame]
  refine ⟨?_, ?_, ?_, ?_, ?_⟩
  · rw [display_frame_eq, cell_ops, List.flatMap_map]
  · intro r c ch
    simp only [List.mem_map, Prod.mk.injEq]
    constructor
    · rintro ⟨⟨a, b⟩, hm, rfl, rfl, rfl⟩
      obtain ⟨h1, h2, h3⟩ := (mem_changed_cells current previous a b).1 hm
      exact ⟨h1, h2, h3, rfl⟩
    · rintro ⟨h1, h2, h3, rfl⟩
      exact ⟨(r, c), (mem_changed_cells current previous r c).2 ⟨h1, h2, h3⟩, rfl, rfl, rfl⟩
  · rw [List.pairwise_map]
    exact changed_cells_pairwise current previous
  · rw [List.length_map, ← List.toFinset_card_of_nodup (changed_cells_nodup current previous)]
    congr 1
    ext ⟨r, c⟩
    simp only [List.mem_toFinset, mem_changed_cells, Finset.mem_filter, Finset.mem_product,
      Finset.mem_range, and_assoc]
  · intro r₀ c₀ hr hc hone
    have hperm : (changed_cells current previous).Perm [(r₀, c₀)] := by
      rw [List.perm_ext_iff_of_nodup (changed_cells_nodup current previous)
        (List.nodup_singleton _)]
      rintro ⟨r, c⟩
      rw [mem_changed_cells, List.mem_singleton, Prod.mk.injEq]
      constructor
      · rintro ⟨h1, h2, h3⟩
        exact (hone r c h1 h2).1 h3
      · rintro ⟨rfl, rfl⟩
        exact ⟨hr, hc, (hone r c hr hc).2 ⟨rfl, rfl⟩⟩
    rw [List.perm_singleton.1 hperm]
    rfl

/-- Witness of C2: a blank previous frame and a current frame whose only other cell is an
`o` in row 1, column 2, give the single write of `o` at that cell. -/
theorem display_frame_writes_witness :
    (∀ r c, r < TERMINAL_HEIGHT → c < TERMINAL_WIDTH →
      ((Frame.mk (fun r c => if r = 1 ∧ c = 2 then 111 else SPACE)).content r c ≠
        (Frame.mk (fun _ _ => SPACE)).content r c ↔ r = 1 ∧ c = 2)) ∧
    writesFrom (0, 0)
      (display_frame (Frame.mk (fun r c => if r = 1 ∧ c = 2 then 111 else SPACE))
        (Frame.mk (fun _ _ => SPACE))) = [(1, 2, 111)] :=
  have hone : ∀ r c, r < TERMINAL_HEIGHT → c < TERMINAL_WIDTH →
      ((Frame.mk (fun r c => if r = 1 ∧ c = 2 then 111 else SPACE)).content r c ≠
        (Frame.mk (fun _ _ => SPACE)).content r c ↔ r = 1 ∧ c = 2) := by
    intro r c _ _
    show (if r = 1 ∧ c = 2 then 111 else SPACE) ≠ SPACE ↔ r = 1 ∧ c = 2
    by_cases h : r = 1 ∧ c = 2
    · simp [h, SPACE]
    · simp [h]
  ⟨hone,
    (display_frame_writes (Frame.mk (fun _ _ => SPACE))
      (Frame.mk (fun r c => if r = 1 ∧ c = 2 then 111 else SPACE)) (0, 0)).2.2.2.2 1 2
      (by decide) (by decide) hone⟩

/-- C3: rendering a frame against itself emits no cursor move and no character: the only
operation is the flush of the stream, and the terminal performs no write. -/
theorem display_frame_idempotent (f : Frame) (cur : Nat × Nat) :
    display_frame f f = [TermOp.flush] ∧ writesFrom cur (display_frame f f) = [] := by
  have hnil : changed_cells f f = [] := by
    rw [List.eq_nil_iff_forall_not_mem]
    rintro ⟨r, c⟩ hm
    exact ((mem_changed_cells f f r c).1 hm).2.2 rfl
  rw [writesFrom_display_frame, display_frame_eq, hnil]
  exact ⟨rfl, rfl⟩

/-! ## Frame loader -/

theorem pad_row_content (row n j : Nat) (f : Frame) (r c : Nat) :
    (pad_row row n j f).content r c =
      if r = row ∧ j ≤ c ∧ c < j + n then SPACE else f.content r c := by
  induction n generalizing j f with
  | zero =>
    have : ¬ (r = row ∧ j ≤ c ∧ c < j + 0) := by omega
    rw [pad_row, if_neg this]
  | succ n ih =>
    rw [pad_row, ih]
    simp only [Frame.set]
    by_cases h1 : r = row ∧ j + 1 ≤ c ∧ c < j + 1 + n
    · have h2 : r = row ∧ j ≤ c ∧ c < j + (n + 1) := by omega
      rw [if_pos h1, if_pos h2]
    · rw [if_neg h1]
      by_cases h3 : r = row ∧ c = j
      · have h2 : r = row ∧ j ≤ c ∧ c < j + (n + 1) := by omega
        rw [if_pos h3, if_pos h2]
      · have h2 : ¬ (r = row ∧ j ≤ c ∧ c < j + (n + 1)) := by omega
        rw [if_neg h3, if_neg h2]

theorem fill_rows_content (n i : Nat) (f : Frame) (r c : Nat) :
    (fill_rows n i f).content r c =
      if i ≤ r ∧ r < i + n ∧ c ≤ TERMINAL_WIDTH then
        (if c < TERMINAL_WIDTH then SPACE else NUL)
      else f.content r c := by
  induction n generalizing i f with
  | zero =>
    have : ¬ (i ≤ r ∧ r < i + 0 ∧ c ≤ TERMINAL_WIDTH) := by omega
    rw [fill_rows, if_neg this]
  | succ n ih =>
    rw [fill_rows, ih]
    simp only [Frame.set, memset_row]
    by_cases h1 : i + 1 ≤ r ∧ r < i + 1 + n ∧ c ≤ TERMINAL_WIDTH
    · have h2 : i ≤ r ∧ r < i + (n + 1) ∧ c ≤ TERMINAL_WIDTH := by omega
      rw [if_pos h1, if_pos h2]
    · rw [if_neg h1]
      by_cases h3 : r = i ∧ c = TERMINAL_WIDTH
      · have h2 : i ≤ r ∧ r < i + (n + 1) ∧ c ≤ TERMINAL_WIDTH := by omega
        have h4 : ¬ c < TERMINAL_WIDTH := by omega
        rw [if_pos h3, if_pos h2, if_neg h4]
      · rw [if_neg h3]
        by_cases h5 : r = i ∧ c < TERMINAL_WIDTH
        · have h2 : i ≤ r ∧ r < i + (n + 1) ∧ c ≤ TERMINAL_WIDTH := by omega
          rw [if_pos h5, if_pos h2, if_pos h5.2]
        · have h2 : ¬ (i ≤ r ∧ r < i + (n + 1) ∧ c ≤ TERMINAL_WIDTH) := by omega
          rw [if_neg h5, if_neg h2]

theorem strip_line_endings_le (buffer : List Nat) (len : Nat) :
    (strip_line_endings buffer len).2 ≤ len := by
  induction len generalizing buffer with
  | zero => simp [strip_line_endings]
  | succ n ih =>
    rw [strip_line_endings]
    split
    · exact Nat.le_succ_of_le (ih _)
    · exact Nat.le_refl _

theorem strip_line_endings_getD (buffer : List Nat) (len c : Nat)
    (hc : c < (strip_line_endings buffer len).2) :
    (strip_line_endings buffer len).1.getD c NUL = buffer.getD c NUL := by
  induction len generalizing buffer with
  | zero => simp [strip_line_endings] at hc
  | succ n ih =>
    rw [strip_line_endings] at hc ⊢
    split
    · next h =>
      rw [if_pos h] at hc
      rw [ih _ hc]
      have hlt : c < n := Nat.lt_of_lt_of_le hc (strip_line_endings_le _ _)
      simp only [List.getD_eq_getElem?_getD]
      rw [List.getElem?_set_ne (by omega)]
    · rfl

theorem after_reads_nil (k : Nat) : after_reads k [] = [] := by
  induction k with
  | zero => rfl
  | succ k ih => simpa [after_reads, fgets_read] using ih

theorem row_cell_nil (c : Nat) :
    row_cell [] c = if c < TERMINAL_WIDTH then SPACE else NUL := rfl

/-- One pass of the body of the main loop of `load_frame` builds row `i` cell by cell. -/
theorem load_row_content (i : Nat) (buffer : List Nat) (f : Frame) (r c : Nat) :
    ((pad_row i
        (TERMINAL_WIDTH -
          (if (strip_line_endings buffer (strlen buffer)).2 < TERMINAL_WIDTH then
            (strip_line_endings buffer (strlen buffer)).2 else TERMINAL_WIDTH))
        (if (strip_line_endings buffer (strlen buffer)).2 < TERMINAL_WIDTH then
          (strip_line_endings buffer (strlen buffer)).2 else TERMINAL_WIDTH)
        (memcpy_row f i (strip_line_endings buffer (strlen buffer)).1
          (if (strip_line_endings buffer (strlen buffer)).2 < TERMINAL_WIDTH then
            (strip_line_endings buffer (strlen buffer)).2 else TERMINAL_WIDTH))).set
      i TERMINAL_WIDTH NUL).content r c =
    if r = i ∧ c ≤ TERMINAL_WIDTH then
      (if c < (strip_line_endings buffer (strlen buffer)).2 ∧ c < TERMINAL_WIDTH then
        buffer.getD c NUL
      else if c < TERMINAL_WIDTH then SPACE else NUL)
    else f.content r c := by
  generalize hL : (strip_line_endings buffer (strlen buffer)).2 = L
  simp only [Frame.set, pad_row_content, memcpy_row]
  by_cases hr : r = i
  · subst hr
    by_cases hc : c = TERMINAL_WIDTH
    · subst hc
      simp
    · by_cases hc2 : c < TERMINAL_WIDTH
      · by_cases hcL : c < L
        · have e := strip_line_endings_getD buffer (strlen buffer) c (hL ▸ hcL)
          have h1 : ¬ (r = r ∧ (if L < TERMINAL_WIDTH then L else TERMINAL_WIDTH) ≤ c ∧
              c < (if L < TERMINAL_WIDTH then L else TERMINAL_WIDTH) +
                (TERMINAL_WIDTH - (if L < TERMINAL_WIDTH then L else TERMINAL_WIDTH))) := by
            split <;> omega
          have h2 : r = r ∧ c < (if L < TERMINAL_WIDTH then L else TERMINAL_WIDTH) := by
            split <;> omega
          rw [if_neg (by omega), if_neg h1, if_pos h2, e, if_pos (by omega : r = r ∧ c ≤ _),
            if_pos ⟨hcL, hc2⟩]
        · have h1 : (r = r ∧ (if L < TERMINAL_WIDTH then L else TERMINAL_WIDTH) ≤ c ∧
              c < (if L < TERMINAL_WIDTH then L else TERMINAL_WIDTH) +
                (TERMINAL_WIDTH - (if L < TERMINAL_WIDTH then L else TERMINAL_WIDTH))) := by
            split <;> omega
          rw [if_neg (by omega), if_pos h1, if_pos (by omega : r = r ∧ c ≤ _),
            if_neg (by omega), if_pos hc2]
      · have h1 : ¬ (r = r ∧ (if L < TERMINAL_WIDTH then L else TERMINAL_WIDTH) ≤ c ∧
              c < (if L < TERMINAL_WIDTH then L else TERMINAL_WIDTH) +
                (TERMINAL_WIDTH - (if L < TERMINAL_WIDTH then L else TERMINAL_WIDTH))) := by
          split <;> omega
        have h2 : ¬ (r = r ∧ c < (if L < TERMINAL_WIDTH then L else TERMINAL_WIDTH)) := by
          split <;> omega
        rw [if_neg (by omega), if_neg h1, if_neg h2, if_neg (by omega : ¬ (r = r ∧ c ≤ _))]
  · simp [hr]

/-- What `load_frame_rows` leaves in each cell: the rows from `i` on are built from the
stream, one `fgets` call per row, and no other cell is touched. -/
theorem load_frame_rows_content (n i : Nat) (file : List Nat) (f : Frame) (r c : Nat) :
    (load_frame_rows n i file f).content r c =
      if i ≤ r ∧ r < i + n ∧ c ≤ TERMINAL_WIDTH then row_cell (after_reads (r - i) file) c
      else f.content r c := by
  induction n generalizing i file f with
  | zero =>
    have : ¬ (i ≤ r ∧ r < i + 0 ∧ c ≤ TERMINAL_WIDTH) := by omega
    rw [load_frame_rows, if_neg this]
  | succ n ih =>
    rw [load_frame_rows]
    cases file with
    | nil =>
      simp only [fgets, fill_rows_content, after_reads_nil, row_cell_nil]
    | cons b s =>
      simp only [fgets]
      rw [ih, load_row_content]
      by_cases h1 : i + 1 ≤ r ∧ r < i + 1 + n ∧ c ≤ TERMINAL_WIDTH
      · have h2 : i ≤ r ∧ r < i + (n + 1) ∧ c ≤ TERMINAL_WIDTH := by omega
        have e : r - i = (r - (i + 1)) + 1 := by omega
        rw [if_pos h1, if_pos h2, e, after_reads]
      · rw [if_neg h1]
        by_cases h3 : r = i ∧ c ≤ TERMINAL_WIDTH
        · have h2 : i ≤ r ∧ r < i + (n + 1) ∧ c ≤ TERMINAL_WIDTH := by omega
          have e : r - i = 0 := by omega
          rw [if_pos h3, if_pos h2, e, after_reads, row_cell]
          simp only [fgets]
        · have h2 : ¬ (i ≤ r ∧ r < i + (n + 1) ∧ c ≤ TERMINAL_WIDTH) := by omega
          rw [if_neg h3, if_neg h2]

/-- What a successful `load_frame` leaves in each cell of the grid. -/
theorem load_frame_content (fopen : List Nat → Option (List Nat)) (filename file : List Nat)
    (frame : Frame) (h : fopen filename = some file) (r c : Nat)
    (hr : r < TERMINAL_HEIGHT) (hc : c ≤ TERMINAL_WIDTH) :
    (load_frame fopen filename frame).2.content r c = row_cell (after_reads r file) c := by
  rw [load_frame, h]
  simp only
  rw [load_frame_rows_content, if_pos (by omega)]
  rfl

theorem fgets_read_append (n : Nat) (s : List Nat) :
    (fgets_read n s).1 ++ (fgets_read n s).2 = s := by
  induction n generalizing s with
  | zero => rfl
  | succ n ih =>
    cases s with
    | nil => rfl
    | cons b t =>
      rw [fgets_read]
      split
      · rfl
      · simp [ih t]

theorem fgets_read_subset (n : Nat) (s : List Nat) (x : Nat) (hx : x ∈ (fgets_read n s).1) :
    x ∈ s := by
  rw [← fgets_read_append n s]
  exact List.mem_append_left _ hx

theorem fgets_read_length_le (n : Nat) (s : List Nat) : (fgets_read n s).1.length ≤ n := by
  induction n generalizing s with
  | zero => simp [fgets_read]
  | succ n ih =>
    cases s with
    | nil => simp [fgets_read]
    | cons b t =>
      rw [fgets_read]
      split
      · simp
      · simpa using ih t

/-- A line feed can only be the last character `fgets` reads. -/
theorem fgets_read_lf_last (n : Nat) (s : List Nat) (j : Nat)
    (hj : j + 1 < (fgets_read n s).1.length) : (fgets_read n s).1.getD j NUL ≠ LF := by
  induction n generalizing s j with
  | zero => simp [fgets_read] at hj
  | succ n ih =>
    cases s with
    | nil => simp [fgets_read] at hj
    | cons b t =>
      rw [fgets_read] at hj ⊢
      split
      · next h => rw [if_pos h] at hj; simp at hj
      · next h =>
        rw [if_neg h] at hj
        cases j with
        | zero => simpa using h
        | succ j =>
          simp only [List.length_cons, Nat.add_lt_add_iff_right] at hj
          simpa using ih t j hj

theorem strlen_le_length (l : List Nat) : strlen l ≤ l.length := by
  induction l with
  | nil => simp [strlen]
  | cons b t ih =>
    rw [strlen]
    split
    · simp
    · simpa using ih

theorem strlen_append_nul (l : List Nat) : strlen (l ++ [NUL]) ≤ l.length := by
  induction l with
  | nil => simp [strlen]
  | cons b t ih =>
    rw [List.cons_append, strlen]
    split
    · simp
    · simpa using ih

theorem getD_ne_nul_of_lt_strlen (l : List Nat) (j : Nat) (hj : j < strlen l) :
    l.getD j NUL ≠ NUL := by
  induction l generalizing j with
  | nil => simp [strlen] at hj
  | cons b t ih =>
    rw [strlen] at hj
    split at hj
    · simp at hj
    · next h =>
      cases j with
      | zero => simpa using h
      | succ j => simpa using ih j (by omega)

/-- After the stripping loop the last character kept is neither LF nor CR. -/
theorem strip_line_endings_last (buffer : List Nat) (len : Nat)
    (hpos : 0 < (strip_line_endings buffer len).2) :
    buffer.getD ((strip_line_endings buffer len).2 - 1) NUL ≠ LF ∧
      buffer.getD ((strip_line_endings buffer len).2 - 1) NUL ≠ CR := by
  induction len generalizing buffer with
  | zero => simp [strip_line_endings] at hpos
  | succ n ih =>
    rw [strip_line_endings] at hpos ⊢
    split
    · next h =>
      rw [if_pos h] at hpos
      have hle := strip_line_endings_le (buffer.set n NUL) n
      have := ih (buffer.set n NUL) hpos
      simp only [List.getD_eq_getElem?_getD] at this ⊢
      rw [List.getElem?_set_ne (by omega)] at this
      exact this
    · next h =>
      simp only [Nat.add_sub_cancel]
      exact ⟨fun e => h (Or.inl e), fun e => h (Or.inr e)⟩

/-- A cell of a row built by `load_frame` holds the space filler or a byte of the stream
that is neither NUL nor LF. -/
theorem row_cell_space_or_mem (s : List Nat) (c : Nat) (hc : c < TERMINAL_WIDTH) :
    row_cell s c = SPACE ∨ (row_cell s c ∈ s ∧ row_cell s c ≠ NUL ∧ row_cell s c ≠ LF) := by
  cases s with
  | nil => left; rw [row_cell_nil, if_pos hc]
  | cons b t =>
    simp only [row_cell, fgets]
    generalize hchunk : (fgets_read (TERMINAL_WIDTH * 2 - 1) (b :: t)).1 = chunk
    by_cases hL : c < (strip_line_endings (chunk ++ [NUL]) (strlen (chunk ++ [NUL]))).2
    · right
      rw [if_pos ⟨hL, hc⟩]
      have h1 := strip_line_endings_le (chunk ++ [NUL]) (strlen (chunk ++ [NUL]))
      have h2 := strlen_append_nul chunk
      have hcl : c < chunk.length := by omega
      have hnn := getD_ne_nul_of_lt_strlen (chunk ++ [NUL]) c (by omega)
      have hget : (chunk ++ [NUL]).getD c NUL = chunk.getD c NUL := by
        simp only [List.getD_eq_getElem?_getD]
        rw [List.getElem?_append_left hcl]
      refine ⟨?_, hnn, ?_⟩
      · rw [hget]
        apply fgets_read_subset (TERMINAL_WIDTH * 2 - 1)
        rw [hchunk, List.getD_eq_getElem?_getD, List.getElem?_eq_getElem hcl]
        exact List.getElem_mem _
      · intro hlf
        by_cases hlast : c + 1 < chunk.length
        · rw [hget] at hlf
          exact fgets_read_lf_last (TERMINAL_WIDTH * 2 - 1) (b :: t) c (by rw [hchunk]; exact hlast)
            (by rw [hchunk]; exact hlf)
        · have hpos : 0 < (strip_line_endings (chunk ++ [NUL]) (strlen (chunk ++ [NUL]))).2 := by
            omega
          have hlastne := (strip_line_endings_last _ _ hpos).1
          have e : (strip_line_endings (chunk ++ [NUL]) (strlen (chunk ++ [NUL]))).2 - 1 = c := by
            omega
          rw [e] at hlastne
          exact hlastne hlf
    · left
      rw [if_neg (fun h => hL h.1), if_pos hc]

theorem after_reads_subset (k : Nat) (s : List Nat) (x : Nat) (hx : x ∈ after_reads k s) :
    x ∈ s := by
  induction k generalizing s with
  | zero => exact hx
  | succ k ih =>
    rw [after_reads] at hx
    have := ih _ hx
    rw [← fgets_read_append (TERMINAL_WIDTH * 2 - 1) s]
    exact List.mem_append_right _ this

theorem row_cell_terminator (s : List Nat) : row_cell s TERMINAL_WIDTH = NUL := by
  cases s with
  | nil => rfl
  | cons b t => simp [row_cell, fgets]

theorem clean_text_tail (n : Nat) (s : List Nat) (h : clean_text s) :
    clean_text (fgets_read n s).2 := by
  induction n generalizing s with
  | zero => exact h
  | succ n ih =>
    cases s with
    | nil => exact h
    | cons b t =>
      rw [fgets_read]
      split
      · exact h.2
      · exact ih t h.2

theorem clean_text_after_reads (k : Nat) (s : List Nat) (h : clean_text s) :
    clean_text (after_reads k s) := by
  induction k generalizing s with
  | zero => exact h
  | succ k ih => exact ih _ (clean_text_tail _ s h)

theorem clean_text_ne_nul (s : List Nat) (h : clean_text s) : ∀ x ∈ s, x ≠ NUL := by
  induction s with
  | nil => intro x hx; cases hx
  | cons b t ih =>
    intro x hx
    rcases List.mem_cons.1 hx with rfl | hx
    · rcases h.1 with hp | hp | hp
      · intro e; rw [e] at hp; exact absurd hp (by decide)
      · rw [hp]; decide
      · rw [hp.1]; decide
    · exact ih h.2 x hx

/-- In clean text, what `fgets` reads from a stream that starts with a line terminator is a
run of CR and LF bytes. -/
theorem fgets_read_terminators (n : Nat) (s : List Nat) (h : clean_text s)
    (hd : s.headD LF = LF ∨ s.headD LF = CR) :
    ∀ x ∈ (fgets_read n s).1, x = LF ∨ x = CR := by
  induction n generalizing s with
  | zero => intro x hx; simp [fgets_read] at hx
  | succ n ih =>
    cases s with
    | nil => intro x hx; simp [fgets_read] at hx
    | cons b t =>
      rw [fgets_read]
      split
      · next hb => intro x hx; left; simpa [hb] using hx
      · next hb =>
        have hbcr : b = CR := by
          rcases hd with e | e
          · exact absurd e hb
          · exact e
        have ht : t.headD LF = LF ∨ t.headD LF = CR := by
          rcases h.1 with hp | hp | hp
          · rw [hbcr] at hp; exact absurd hp (by decide)
          · exact absurd hp hb
          · exact hp.2
        intro x hx
        rcases List.mem_cons.1 hx with rfl | hx
        · exact Or.inr hbcr
        · exact ih t h.2 ht x hx

/-- In clean text, a character `fgets` reads is printable, or it and all the characters read
after it are CR and LF bytes. -/
theorem fgets_read_printable_or_run (n : Nat) (s : List Nat) (h : clean_text s) (c : Nat)
    (hc : c < (fgets_read n s).1.length) :
    printable ((fgets_read n s).1.getD c NUL) ∨
      ∀ j, c ≤ j → j < (fgets_read n s).1.length →
        (fgets_read n s).1.getD j NUL = LF ∨ (fgets_read n s).1.getD j NUL = CR := by
  induction n generalizing s c with
  | zero => simp [fgets_read] at hc
  | succ n ih =>
    cases s with
    | nil => simp [fgets_read] at hc
    | cons b t =>
      rw [fgets_read] at hc ⊢
      split
      · next hb =>
        right
        intro j _ hj
        have : j = 0 := by simpa using hj
        subst this
        left; simpa using hb
      · next hb =>
        rw [if_neg hb] at hc
        cases c with
        | zero =>
          rcases h.1 with hp | hp | hp
          · left; simpa using hp
          · exact absurd hp hb
          · right
            intro j _ hj
            have hrun := fgets_read_terminators n t h.2 hp.2
            cases j with
            | zero => right; simpa using hp.1
            | succ j =>
              simp only [List.length_cons, Nat.add_lt_add_iff_right] at hj
              simp only [List.getD_cons_succ]
              apply hrun
              rw [List.getD_eq_getElem?_getD, List.getElem?_eq_getElem hj]
              exact List.getElem_mem _
        | succ c =>
          simp only [List.length_cons, Nat.add_lt_add_iff_right] at hc
          rcases ih t h.2 c hc with hp | hp
          · left; simpa using hp
          · right
            intro j hcj hj
            cases j with
            | zero => omega
            | succ j =>
              simp only [List.length_cons, Nat.add_lt_add_iff_right] at hj
              simpa using hp j (by omega) hj

/-- The stripping loop removes a whole trailing run of CR and LF bytes. -/
theorem strip_line_endings_run (buffer : List Nat) (len c : Nat)
    (h : ∀ j, c ≤ j → j < len → buffer.getD j NUL = LF ∨ buffer.getD j NUL = CR) :
    (strip_line_endings buffer len).2 ≤ c := by
  induction len generalizing buffer with
  | zero => simp [strip_line_endings]
  | succ n ih =>
    by_cases hcn : c ≤ n
    · rw [strip_line_endings, if_pos (h n hcn (by omega))]
      apply ih
      intro j hcj hj
      have := h j hcj (by omega)
      simp only [List.getD_eq_getElem?_getD] at this ⊢
      rw [List.getElem?_set_ne (by omega)]
      exact this
    · exact Nat.le_trans (strip_line_endings_le _ _) (by omega)

theorem strlen_eq_length (l : List Nat) (h : ∀ x ∈ l, x ≠ NUL) :
    strlen (l ++ [NUL]) = l.length := by
  induction l with
  | nil => simp [strlen]
  | cons b t ih =>
    rw [List.cons_append, strlen, if_neg (h b (List.mem_cons_self _ _)),
      ih (fun x hx => h x (List.mem_cons_of_mem _ hx))]
    rfl

/-- In clean text every cell of a row built by `load_frame` is printable. -/
theorem row_cell_printable (s : List Nat) (h : clean_text s) (c : Nat)
    (hc : c < TERMINAL_WIDTH) : printable (row_cell s c) := by
  cases s with
  | nil => rw [row_cell_nil, if_pos hc]; decide
  | cons b t =>
    simp only [row_cell, fgets]
    have hnn : ∀ x ∈ (fgets_read (TERMINAL_WIDTH * 2 - 1) (b :: t)).1, x ≠ NUL :=
      fun x hx => clean_text_ne_nul _ h x (fgets_read_subset _ _ x hx)
    have hrun := fgets_read_printable_or_run (TERMINAL_WIDTH * 2 - 1) (b :: t) h c
    generalize (fgets_read (TERMINAL_WIDTH * 2 - 1) (b :: t)).1 = chunk at hnn hrun
    by_cases hL : c < (strip_line_endings (chunk ++ [NUL]) (strlen (chunk ++ [NUL]))).2
    · rw [if_pos ⟨hL, hc⟩]
      have hlen := strlen_eq_length chunk hnn
      have h1 := strip_line_endings_le (chunk ++ [NUL]) (strlen (chunk ++ [NUL]))
      have hcl : c < chunk.length := by omega
      have hget : ∀ j, j < chunk.length → (chunk ++ [NUL]).getD j NUL = chunk.getD j NUL := by
        intro j hj
        simp only [List.getD_eq_getElem?_getD]
        rw [List.getElem?_append_left hj]
      rw [hget c hcl]
      rcases hrun hcl with hp | hp
      · exact hp
      · exfalso
        have := strip_line_endings_run (chunk ++ [NUL]) (strlen (chunk ++ [NUL])) c (by
          intro j hcj hj
          rw [hlen] at hj
          rw [hget j hj]
          exact hp j hcj hj)
        omega
    · rw [if_neg (fun h => hL h.1), if_pos hc]; decide

/-- C4, at a failing input: the source holds a first line of 160 characters (159 `a` and
a `z`) and a second line `b`. The call succeeds and row 0 holds the first 80 characters of
the first line, but `fgets` takes only 159 characters of that line, so its last character
`z` fills row 1 and the second line lands in row 2. -/
theorem load_frame_long_line_spills :
    (load_frame (one_file (List.replicate 159 97 ++ [122, 10, 98, 10])) (bytes "anim/a.txt")
      (const_frame 0)).1 = 1 ∧
    (load_frame (one_file (List.replicate 159 97 ++ [122, 10, 98, 10])) (bytes "anim/a.txt")
      (const_frame 0)).2.row 0 = List.replicate 80 97 ∧
    (load_frame (one_file (List.replicate 159 97 ++ [122, 10, 98, 10])) (bytes "anim/a.txt")
      (const_frame 0)).2.row 1 = 122 :: List.replicate 79 SPACE ∧
    (load_frame (one_file (List.replicate 159 97 ++ [122, 10, 98, 10])) (bytes "anim/a.txt")
      (const_frame 0)).2.row 2 = 98 :: List.replicate 79 SPACE := by
  decide

/-- C5, at a failing input: the source holds the line `a` ended by a bare CR and the line
`b` ended by LF. `fgets` reads both as one line, so row 0 holds `a`, the CR and `b`, and
row 1 is blank. -/
theorem load_frame_bare_cr_kept :
    (load_frame (one_file [97, CR, 98, LF]) (bytes "anim/a.txt") (const_frame 0)).1 = 1 ∧
    (load_frame (one_file [97, CR, 98, LF]) (bytes "anim/a.txt") (const_frame 0)).2.row 0 =
      97 :: CR :: 98 :: List.replicate 77 SPACE ∧
    (load_frame (one_file [97, CR, 98, LF]) (bytes "anim/a.txt") (const_frame 0)).2.row 1 =
      List.replicate 80 SPACE := by
  decide

/-- C6, at a failing input: the source holds a single line of 160 `a`. `fgets` takes 159
of them for row 0 and the last one fills row 1, which is therefore not a row of spaces. -/
theorem load_frame_one_long_line :
    (load_frame (one_file (List.replicate 160 97 ++ [LF])) (bytes "anim/a.txt")
      (const_frame 0)).1 = 1 ∧
    (load_frame (one_file (List.replicate 160 97 ++ [LF])) (bytes "anim/a.txt")
      (const_frame 0)).2.row 1 = 97 :: List.replicate 79 SPACE ∧
    (load_frame (one_file (List.replicate 160 97 ++ [LF])) (bytes "anim/a.txt")
      (const_frame 0)).2.row 1 ≠ List.replicate TERMINAL_WIDTH SPACE ∧
    (load_frame (one_file (List.replicate 160 97 ++ [LF])) (bytes "anim/a.txt")
      (const_frame 0)).2.row 2 = List.replicate TERMINAL_WIDTH SPACE := by
  decide

/-- C7: loading an empty (zero-byte) source succeeds (returns 1) and yields a frame whose
24 rows each consist of exactly 80 space characters followed by the NUL at index 80. -/
theorem load_frame_empty_source (fopen : List Nat → Option (List Nat)) (filename : List Nat)
    (frame : Frame) (h : fopen filename = some []) :
    (load_frame fopen filename frame).1 = 1 ∧
    ∀ r, r < TERMINAL_HEIGHT →
      (load_frame fopen filename frame).2.row r = List.replicate TERMINAL_WIDTH SPACE ∧
      (∀ c, c < TERMINAL_WIDTH → (load_frame fopen filename frame).2.content r c = SPACE) ∧
      (load_frame fopen filename frame).2.content r TERMINAL_WIDTH = NUL := by
  have hcell : ∀ r c, r < TERMINAL_HEIGHT → c ≤ TERMINAL_WIDTH →
      (load_frame fopen filename frame).2.content r c =
        if c < TERMINAL_WIDTH then SPACE else NUL := by
    intro r c hr hc
    rw [load_frame_content fopen filename [] frame h r c hr hc, after_reads_nil, row_cell_nil]
  refine ⟨by rw [load_frame, h], fun r hr => ⟨?_, ?_, ?_⟩⟩
  · apply List.ext_getElem
    · simp [Frame.row]
    · intro c h1 h2
      have hc : c < TERMINAL_WIDTH := by simpa [Frame.row] using h1
      simp only [Frame.row, List.getElem_map, List.getElem_range, List.getElem_replicate]
      rw [hcell r c hr (Nat.le_of_lt hc), if_pos hc]
  · intro c hc
    rw [hcell r c hr (Nat.le_of_lt hc), if_pos hc]
  · rw [hcell r TERMINAL_WIDTH hr (Nat.le_refl _), if_neg (Nat.lt_irrefl _)]

/-- Witness of C7: an empty file loaded over a frame full of `x`. -/
theorem load_frame_empty_source_witness :
    one_file [] (bytes "anim/empty_frame.txt") = some [] ∧
    (load_frame (one_file []) (bytes "anim/empty_frame.txt") (const_frame 120)).2.row 23 =
      List.replicate TERMINAL_WIDTH SPACE :=
  ⟨rfl, ((load_frame_empty_source (one_file []) (bytes "anim/empty_frame.txt")
    (const_frame 120) rfl).2 23 (by decide)).1⟩

/-- C8: when the source cannot be opened `load_frame` returns 0 and leaves the frame of the
caller exactly as it was; when the source can be opened `load_frame` returns 1. -/
theorem load_frame_open (fopen : List Nat → Option (List Nat)) (filename : List Nat)
    (frame : Frame) :
    (fopen filename = none → load_frame fopen filename frame = (0, frame)) ∧
    (∀ file, fopen filename = some file → (load_frame fopen filename frame).1 = 1) := by
  constructor
  · intro h
    rw [load_frame, h]
  · intro file h
    rw [load_frame, h]

/-- Witness of C8: a file system without any file, and one where every file is `o` and a
line feed. -/
theorem load_frame_open_witness :
    ((fun _ => none : List Nat → Option (List Nat)) (bytes "nonexistent_file.txt") = none ∧
      load_frame (fun _ => none) (bytes "nonexistent_file.txt") (const_frame 120) =
        (0, const_frame 120)) ∧
    (one_file [111, 10] (bytes "anim/a.txt") = some [111, 10] ∧
      (load_frame (one_file [111, 10]) (bytes "anim/a.txt") (const_frame 120)).1 = 1) :=
  ⟨⟨rfl,
      (load_frame_open (fun _ => none) (bytes "nonexistent_file.txt") (const_frame 120)).1 rfl⟩,
    ⟨rfl,
      (load_frame_open (one_file [111, 10]) (bytes "anim/a.txt") (const_frame 120)).2
        [111, 10] rfl⟩⟩

/-- C9, as amended: after a successful `load_frame` each of the 24 rows has exactly 80
cells, followed by the NUL at index 80, and every cell holds the space filler or a byte of
the source that is neither NUL nor LF, copied as it is; every cell holds a printable
character when the source is clean text. -/
theorem load_frame_cells (fopen : List Nat → Option (List Nat)) (filename file : List Nat)
    (frame : Frame) (h : fopen filename = some file) (r : Nat) (hr : r < TERMINAL_HEIGHT) :
    ((load_frame fopen filename frame).2.row r).length = TERMINAL_WIDTH ∧
    (load_frame fopen filename frame).2.content r TERMINAL_WIDTH = NUL ∧
    (∀ c, c < TERMINAL_WIDTH →
      (load_frame fopen filename frame).2.content r c = SPACE ∨
      ((load_frame fopen filename frame).2.content r c ∈ file ∧
        (load_frame fopen filename frame).2.content r c ≠ NUL ∧
        (load_frame fopen filename frame).2.content r c ≠ LF)) ∧
    (clean_text file → ∀ c, c < TERMINAL_WIDTH →
      printable ((load_frame fopen filename frame).2.content r c)) := by
  refine ⟨by simp [Frame.row], ?_, ?_, ?_⟩
  · rw [load_frame_content fopen filename file frame h r _ hr (Nat.le_refl _),
      row_cell_terminator]
  · intro c hc
    rw [load_frame_content fopen filename file frame h r c hr (Nat.le_of_lt hc)]
    rcases row_cell_space_or_mem (after_reads r file) c hc with h1 | ⟨h1, h2, h3⟩
    · exact Or.inl h1
    · exact Or.inr ⟨after_reads_subset r file _ h1, h2, h3⟩
  · intro hclean c hc
    rw [load_frame_content fopen filename file frame h r c hr (Nat.le_of_lt hc)]
    exact row_cell_printable _ (clean_text_after_reads r file hclean) c hc

/-- Witness of C9: the CRLF text `o`, CR, LF, `x` gives a printable cell in row 1. -/
theorem load_frame_cells_witness :
    one_file [111, 13, 10, 120] (bytes "anim/a.txt") = some [111, 13, 10, 120] ∧
    1 < TERMINAL_HEIGHT ∧ clean_text [111, 13, 10, 120] ∧ 0 < TERMINAL_WIDTH ∧
    printable
      ((load_frame (one_file [111, 13, 10, 120]) (bytes "anim/a.txt")
        (const_frame 0)).2.content 1 0) :=
  ⟨rfl, by decide, by simp [clean_text, printable, LF, CR], by decide,
    (load_frame_cells (one_file [111, 13, 10, 120]) (bytes "anim/a.txt") [111, 13, 10, 120]
      (const_frame 0) rfl 1 (by decide)).2.2.2 (by simp [clean_text, printable, LF, CR]) 0
      (by decide)⟩

/-- Counterexample to C9 as stated: a source holding `a`, a tab, `b` and a line feed loads
successfully, and cell 1 of row 0 then holds the tab, which is not a printable character. -/
theorem load_frame_tab_not_printable :
    (load_frame (one_file [97, 9, 98, 10]) (bytes "anim/a.txt") (const_frame 0)).1 = 1 ∧
    (load_frame (one_file [97, 9, 98, 10]) (bytes "anim/a.txt") (const_frame 0)).2.content 0 1
      = 9 ∧
    ¬ printable
      ((load_frame (one_file [97, 9, 98, 10]) (bytes "anim/a.txt") (const_frame 0)).2.content
        0 1) := by
  decide

/-! ## Frame set loader -/

theorem cstr_of_not_mem (a : List Nat) (h : NUL ∉ a) : cstr a = a := by
  induction a with
  | nil => rfl
  | cons x s ih =>
    rw [cstr, if_neg (fun e => h (by simp [e])), ih (fun hm => h (List.mem_cons_of_mem _ hm))]

theorem lex_lt_cons_ne (x y : Nat) (s t : List Nat) (h : x ≠ y) :
    lex_lt (x :: s) (y :: t) ↔ x < y := by
  constructor
  · intro hl
    cases hl with
    | cons _ => exact absurd rfl h
    | rel hr => exact hr
  · intro hr
    exact List.Lex.rel hr

theorem lex_lt_cons_same (x : Nat) (s t : List Nat) :
    lex_lt (x :: s) (x :: t) ↔ lex_lt s t := List.Lex.cons_iff

theorem cstr_nil : cstr [] = [] := rfl

theorem cstr_cons_nul (x : Nat) (s : List Nat) (h : x = NUL) : cstr (x :: s) = [] := by
  rw [cstr, if_pos h]

theorem cstr_cons_ne (x : Nat) (s : List Nat) (h : x ≠ NUL) : cstr (x :: s) = x :: cstr s := by
  rw [cstr, if_neg h]

theorem lex_lt_nil_cons (y : Nat) (t : List Nat) : lex_lt [] (y :: t) := List.Lex.nil

theorem not_lex_lt_nil (a : List Nat) : ¬ lex_lt a [] := List.Lex.not_nil_right _ a

theorem nul_cast : ((NUL : Nat) : Int) = 0 := rfl

/-- The sign of `strcmp` is the byte-wise lexicographic order of the two strings. -/
theorem strcmp_sign (a b : List Nat) :
    (strcmp a b < 0 ↔ lex_lt (cstr a) (cstr b)) ∧
    (strcmp a b = 0 ↔ cstr a = cstr b) ∧
    (0 < strcmp a b ↔ lex_lt (cstr b) (cstr a)) := by
  induction a generalizing b with
  | nil =>
    cases b with
    | nil => simp [strcmp, cstr, not_lex_lt_nil]
    | cons y t =>
      rw [strcmp, nul_cast, cstr_nil]
      by_cases hy : y = NUL
      · rw [cstr_cons_nul y t hy, hy, nul_cast]
        simp [not_lex_lt_nil]
      · rw [cstr_cons_ne y t hy]
        have hy0 : y ≠ 0 := hy
        refine ⟨⟨fun _ => lex_lt_nil_cons _ _, fun _ => by omega⟩,
          ⟨fun h => by omega, fun h => by cases h⟩,
          ⟨fun h => by omega, fun h => absurd h (not_lex_lt_nil _)⟩⟩
  | cons x s ih =>
    cases b with
    | nil =>
      rw [strcmp, nul_cast, cstr_nil]
      by_cases hx : x = NUL
      · rw [cstr_cons_nul x s hx, hx, nul_cast]
        simp [not_lex_lt_nil]
      · rw [cstr_cons_ne x s hx]
        have hx0 : x ≠ 0 := hx
        refine ⟨⟨fun h => by omega, fun h => absurd h (not_lex_lt_nil _)⟩,
          ⟨fun h => by omega, fun h => by cases h⟩,
          ⟨fun _ => lex_lt_nil_cons _ _, fun _ => by omega⟩⟩
    | cons y t =>
      by_cases hxy : x = y
      · subst hxy
        rw [strcmp, if_pos rfl]
        by_cases hx : x = NUL
        · rw [if_pos hx, cstr_cons_nul x s hx, cstr_cons_nul x t hx]
          simp [not_lex_lt_nil]
        · rw [if_neg hx, cstr_cons_ne x s hx, cstr_cons_ne x t hx, lex_lt_cons_same,
            lex_lt_cons_same]
          simp only [List.cons.injEq, true_and]
          exact ih t
      · rw [strcmp, if_neg hxy]
        by_cases hx : x = NUL
        · have hy : y ≠ NUL := fun e => hxy (hx.trans e.symm)
          have hy0 : y ≠ 0 := hy
          rw [cstr_cons_nul x s hx, cstr_cons_ne y t hy, hx, nul_cast]
          refine ⟨⟨fun _ => lex_lt_nil_cons _ _, fun _ => by omega⟩,
            ⟨fun h => by omega, fun h => by cases h⟩,
            ⟨fun h => by omega, fun h => absurd h (not_lex_lt_nil _)⟩⟩
        · by_cases hy : y = NUL
          · have hx0 : x ≠ 0 := hx
            rw [cstr_cons_ne x s hx, cstr_cons_nul y t hy, hy, nul_cast]
            refine ⟨⟨fun h => by omega, fun h => absurd h (not_lex_lt_nil _)⟩,
              ⟨fun h => by omega, fun h => by cases h⟩,
              ⟨fun _ => lex_lt_nil_cons _ _, fun _ => by omega⟩⟩
          · rw [cstr_cons_ne x s hx, cstr_cons_ne y t hy, lex_lt_cons_ne x y _ _ hxy,
              lex_lt_cons_ne y x _ _ (Ne.symm hxy)]
            simp only [List.cons.injEq]
            refine ⟨by omega, ⟨fun h => by omega, fun h => absurd h.1 hxy⟩, by omega⟩

theorem strcmp_le_iff (a b : List Nat) :
    strcmp a b ≤ 0 ↔ cstr a = cstr b ∨ lex_lt (cstr a) (cstr b) := by
  obtain ⟨h1, h2, _⟩ := strcmp_sign a b
  rw [← h1, ← h2]
  omega

theorem lex_lt_trans {a b c : List Nat} (h1 : lex_lt a b) (h2 : lex_lt b c) : lex_lt a c :=
  IsTrans.trans (r := List.Lex (fun x y : Nat => x < y)) a b c h1 h2

theorem compare_filenames_total (a b : List Nat) :
    compare_filenames a b ≤ 0 ∨ compare_filenames b a ≤ 0 := by
  by_cases h : strcmp a b ≤ 0
  · exact Or.inl h
  · right
    have h3 := (strcmp_sign a b).2.2.1 (by omega)
    exact Int.le_of_lt ((strcmp_sign b a).1.2 h3)

theorem compare_filenames_trans (a b c : List Nat) (h1 : compare_filenames a b ≤ 0)
    (h2 : compare_filenames b c ≤ 0) : compare_filenames a c ≤ 0 := by
  unfold compare_filenames at *
  rw [strcmp_le_iff] at h1 h2 ⊢
  rcases h1 with h1 | h1
  · rw [h1]; exact h2
  · rcases h2 with h2 | h2
    · rw [← h2]; exact Or.inr h1
    · exact Or.inr (lex_lt_trans h1 h2)

theorem qsort_perm (l : List (List Nat)) : (qsort compare_filenames l).Perm l :=
  List.perm_insertionSort _ l

theorem qsort_sorted (l : List (List Nat)) :
    (qsort compare_filenames l).Pairwise (fun a b => compare_filenames a b ≤ 0) := by
  haveI : IsTotal (List Nat) (fun a b => compare_filenames a b ≤ 0) :=
    ⟨compare_filenames_total⟩
  haveI : IsTrans (List Nat) (fun a b => compare_filenames a b ≤ 0) :=
    ⟨compare_filenames_trans⟩
  exact List.sorted_insertionSort (fun a b => compare_filenames a b ≤ 0) l

/-- A common prefix without NUL does not change the result of `strcmp`. -/
theorem strcmp_prefix (p a b : List Nat) (hp : NUL ∉ p) :
    strcmp (p ++ a) (p ++ b) = strcmp a b := by
  induction p with
  | nil => rfl
  | cons x p ih =>
    have hx : x ≠ NUL := fun e => hp (by simp [e])
    rw [List.cons_append, List.cons_append, strcmp, if_pos rfl, if_neg hx,
      ih (fun hm => hp (List.mem_cons_of_mem _ hm))]

/-- Sorting the paths `dir/name` with `strcmp` gives the paths of the sorted names. -/
theorem qsort_map_prefix (p : List Nat) (hp : NUL ∉ p) (l : List (List Nat)) :
    qsort compare_filenames (l.map (fun n => p ++ n)) =
      (qsort compare_filenames l).map (fun n => p ++ n) := by
  unfold qsort
  symm
  apply List.map_insertionSort
  intro a _ b _
  simp only [compare_filenames, strcmp_prefix p a b hp]

theorem snprintf_path_fits (n : List Nat)
    (h : ANIMATION_DIR.length + 1 + n.length < MAX_FILENAME_LENGTH) :
    snprintf_path MAX_FILENAME_LENGTH ANIMATION_DIR n = (ANIMATION_DIR ++ [47]) ++ n := by
  rw [snprintf_path, List.take_of_length_le]
  · simp
  · simp only [List.length_append, List.length_cons]
    omega

theorem read_entries_eq (malloc : Nat → Bool) (entries g g' : List (List Nat))
    (h : read_entries malloc entries g = (true, g')) :
    g' = g ++ ((entries.filter (fun n => decide (n.headD NUL ≠ 46))).take
      (MAX_FRAMES - g.length)).map (snprintf_path MAX_FILENAME_LENGTH ANIMATION_DIR) := by
  induction entries generalizing g with
  | nil =>
    rw [read_entries] at h
    simpa using (Prod.mk.inj h).2.symm
  | cons d rest ih =>
    rw [read_entries] at h
    by_cases hlen : g.length < MAX_FRAMES
    · rw [if_pos hlen] at h
      by_cases hdot : d.headD NUL ≠ 46
      · rw [if_pos hdot] at h
        cases hm : malloc g.length with
        | false => rw [hm] at h; simp at h
        | true =>
          rw [hm] at h
          simp only [if_true] at h
          rw [ih _ h, List.filter_cons_of_pos (by simpa using hdot)]
          have e : MAX_FRAMES - g.length = (MAX_FRAMES - (g.length + 1)) + 1 := by omega
          rw [e, List.take_succ_cons, List.map_cons, List.length_append, List.length_singleton,
            List.append_assoc, List.singleton_append]
      · rw [if_neg hdot] at h
        rw [ih _ h, List.filter_cons_of_neg (by simpa using hdot)]
    · rw [if_neg hlen] at h
      have e : MAX_FRAMES - g.length = 0 := by omega
      rw [e, List.take_zero, List.map_nil, List.append_nil]
      exact (Prod.mk.inj h).2.symm

theorem load_frame_ret (fopen : List Nat → Option (List Nat)) (filename : List Nat)
    (frame : Frame) :
    (load_frame fopen filename frame).1 = 0 ∨ (load_frame fopen filename frame).1 = 1 := by
  rw [load_frame]
  cases fopen filename with
  | none => exact Or.inl rfl
  | some file => exact Or.inr rfl

/-- The loading loop leaves the frames below its start index alone. -/
theorem load_each_below (fopen : List Nat → Option (List Nat)) (names : List (List Nat))
    (i : Nat) (frames : Nat → Frame) (k : Nat) (hk : k < i) :
    (load_each fopen names i frames).2 k = frames k := by
  induction names generalizing i frames with
  | nil => rfl
  | cons name rest ih =>
    rw [load_each]
    split
    · exact Function.update_noteq (by omega) _ _
    · rw [ih (i + 1) _ (by omega)]
      exact Function.update_noteq (by omega) _ _

/-- When the loading loop succeeds, every name was loaded into the frame of its index. -/
theorem load_each_ok (fopen : List Nat → Option (List Nat)) (names : List (List Nat))
    (i : Nat) (frames : Nat → Frame) (h : (load_each fopen names i frames).1 = 1)
    (j : Nat) (hj : j < names.length) :
    load_frame fopen (names.get ⟨j, hj⟩) (frames (i + j)) =
      (1, (load_each fopen names i frames).2 (i + j)) := by
  induction names generalizing i frames j with
  | nil => simp at hj
  | cons name rest ih =>
    rw [load_each] at h ⊢
    split
    · next h0 => rw [if_pos h0] at h; simp at h
    · next h0 =>
      rw [if_neg h0] at h
      cases j with
      | zero =>
        rw [Nat.add_zero, load_each_below fopen rest (i + 1) _ i (by omega),
          Function.update_same]
        rcases load_frame_ret fopen name (frames i) with h1 | h1
        · exact absurd h1 h0
        · exact Prod.ext h1 rfl
      | succ j =>
        have hj2 : j < rest.length := by simpa using hj
        have := ih (i + 1) _ h j hj2
        rw [Function.update_noteq (by omega)] at this
        have e : i + (j + 1) = i + 1 + j := by omega
        rw [e]
        exact this

/-- What a successful `load_animation_frames` went through: the names read, sorted, and
each of them loaded. -/
theorem load_animation_frames_success (env : Env) (frames : Nat → Frame) (frame_count : Nat)
    (entries : List (List Nat)) (hdir : env.opendir ANIMATION_DIR = some entries)
    (hret : (load_animation_frames env frames frame_count).ret = 1) :
    ∃ g, read_entries env.malloc entries [] = (true, g) ∧ g.length ≠ 0 ∧
      (load_each env.fopen (qsort compare_filenames g) 0 frames).1 = 1 ∧
      load_animation_frames env frames frame_count =
        ⟨1, g.length, qsort compare_filenames g,
          (load_each env.fopen (qsort compare_filenames g) 0 frames).2⟩ := by
  simp only [load_animation_frames, hdir] at hret ⊢
  cases hre : read_entries env.malloc entries [] with
  | mk ok g =>
    cases ok with
    | false => simp [hre] at hret
    | true =>
      simp only [hre] at hret ⊢
      by_cases h0 : g.length = 0
      · simp [h0] at hret
      · simp only [if_neg h0] at hret ⊢
        exact ⟨g, rfl, h0, hret, by rw [hret]⟩

/-- C10: when `load_animation_frames` succeeds on a directory whose names fit the path
buffer, the names loaded are a permutation of the selected entries in ascending byte-wise
lexicographic order, `g_filenames` holds their paths `anim/<name>` in that order (sorting the
paths with `strcmp` is sorting the names), and frame `i` is loaded from path `i`; the order
is not numeric, `frame10` comes before `frame2`, and the entries `b.txt`, `a.txt`, `c.txt`
are loaded as `a.txt`, `b.txt`, `c.txt`. -/
theorem load_animation_frames_order :
    (∀ (env : Env) (frames : Nat → Frame) (frame_count : Nat) (entries : List (List Nat)),
      env.opendir ANIMATION_DIR = some entries →
      (∀ n ∈ entries, NUL ∉ n ∧ ANIMATION_DIR.length + 1 + n.length < MAX_FILENAME_LENGTH) →
      (load_animation_frames env frames frame_count).ret = 1 →
      ∃ names : List (List Nat),
        names.Perm (selected entries) ∧
        names.Pairwise (fun a b => a = b ∨ lex_lt a b) ∧
        names = qsort compare_filenames (selected entries) ∧
        (load_animation_frames env frames frame_count).g_filenames =
          names.map (fun n => ANIMATION_DIR ++ 47 :: n) ∧
        (load_animation_frames env frames frame_count).g_filenames =
          qsort compare_filenames ((selected entries).map (fun n => ANIMATION_DIR ++ 47 :: n)) ∧
        (load_animation_frames env frames frame_count).frame_count = names.length ∧
        ∀ i (hi : i < names.length),
          load_frame env.fopen (ANIMATION_DIR ++ 47 :: names.get ⟨i, hi⟩) (frames i) =
            (1, (load_animation_frames env frames frame_count).frames i)) ∧
    lex_lt (bytes "frame10") (bytes "frame2") ∧
    compare_filenames (bytes "anim/frame10") (bytes "anim/frame2") < 0 ∧
    (load_animation_frames (listing_env [bytes "frame2", bytes "frame10"]) (const_frames 0)
      0).g_filenames = [bytes "anim/frame10", bytes "anim/frame2"] ∧
    (load_animation_frames (listing_env [bytes "b.txt", bytes "a.txt", bytes "c.txt"])
      (const_frames 0) 0).ret = 1 ∧
    (load_animation_frames (listing_env [bytes "b.txt", bytes "a.txt", bytes "c.txt"])
      (const_frames 0) 0).g_filenames =
        [bytes "anim/a.txt", bytes "anim/b.txt", bytes "anim/c.txt"] := by
  refine ⟨?_, by decide, by decide, by decide, by decide, by decide⟩
  intro env frames frame_count entries hdir hnames hret
  have hp : NUL ∉ ANIMATION_DIR ++ [47] := by decide
  have hsel : ∀ n ∈ selected entries,
      NUL ∉ n ∧ ANIMATION_DIR.length + 1 + n.length < MAX_FILENAME_LENGTH :=
    fun n hn => hnames n (List.mem_of_mem_filter (List.mem_of_mem_take hn))
  have hmap : (selected entries).map (snprintf_path MAX_FILENAME_LENGTH ANIMATION_DIR) =
      (selected entries).map (fun n => (ANIMATION_DIR ++ [47]) ++ n) :=
    List.map_congr_left (fun n hn => snprintf_path_fits n (hsel n hn).2)
  have hfun : (fun n : List Nat => ANIMATION_DIR ++ 47 :: n) =
      (fun n => (ANIMATION_DIR ++ [47]) ++ n) := by
    funext n; simp
  obtain ⟨g, hre, h0, hload, hres⟩ :=
    load_animation_frames_success env frames frame_count entries hdir hret
  rw [hres]
  simp only
  have hg := read_entries_eq env.malloc entries [] g hre
  rw [List.nil_append, List.length_nil, Nat.sub_zero] at hg
  change g = (selected entries).map _ at hg
  rw [hmap] at hg
  have hq : qsort compare_filenames g =
      (qsort compare_filenames (selected entries)).map
        (fun n => (ANIMATION_DIR ++ [47]) ++ n) := by
    rw [hg, qsort_map_prefix _ hp]
  refine ⟨qsort compare_filenames (selected entries), qsort_perm _, ?_, rfl, ?_, ?_, ?_, ?_⟩
  · have hs := qsort_sorted (selected entries)
    have hmem : ∀ n ∈ qsort compare_filenames (selected entries), NUL ∉ n :=
      fun n hn => (hsel n ((qsort_perm _).mem_iff.1 hn)).1
    refine List.Pairwise.imp_of_mem ?_ hs
    intro a b ha hb hab
    have := (strcmp_le_iff a b).1 hab
    rwa [cstr_of_not_mem a (hmem a ha), cstr_of_not_mem b (hmem b hb)] at this
  · rw [hq, hfun]
  · rw [hfun, hg]
  · rw [hg, List.length_map, (qsort_perm _).length_eq]
  · intro i hi
    have hi2 : i < (qsort compare_filenames g).length := by
      rw [hq, List.length_map]; exact hi
    have := load_each_ok env.fopen (qsort compare_filenames g) 0 frames hload i hi2
    rw [Nat.zero_add] at this
    rw [← this]
    congr 1
    simp only [hq, List.get_eq_getElem, List.getElem_map]
    simp

/-- Witness of C10: a directory that lists `b.txt`, `a.txt`, `c.txt`. -/
theorem load_animation_frames_order_witness :
    (listing_env [bytes "b.txt", bytes "a.txt", bytes "c.txt"]).opendir ANIMATION_DIR =
      some [bytes "b.txt", bytes "a.txt", bytes "c.txt"] ∧
    (∀ n ∈ [bytes "b.txt", bytes "a.txt", bytes "c.txt"],
      NUL ∉ n ∧ ANIMATION_DIR.length + 1 + n.length < MAX_FILENAME_LENGTH) ∧
    (load_animation_frames (listing_env [bytes "b.txt", bytes "a.txt", bytes "c.txt"])
      (const_frames 0) 0).ret = 1 ∧
    ∃ names : List (List Nat),
      names.Perm (selected [bytes "b.txt", bytes "a.txt", bytes "c.txt"]) ∧
      names.Pairwise (fun a b => a = b ∨ lex_lt a b) ∧
      names = qsort compare_filenames (selected [bytes "b.txt", bytes "a.txt", bytes "c.txt"]) ∧
      (load_animation_frames (listing_env [bytes "b.txt", bytes "a.txt", bytes "c.txt"])
        (const_frames 0) 0).g_filenames = names.map (fun n => ANIMATION_DIR ++ 47 :: n) ∧
      (load_animation_frames (listing_env [bytes "b.txt", bytes "a.txt", bytes "c.txt"])
        (const_frames 0) 0).g_filenames =
          qsort compare_filenames
            ((selected [bytes "b.txt", bytes "a.txt", bytes "c.txt"]).map
              (fun n => ANIMATION_DIR ++ 47 :: n)) ∧
      (load_animation_frames (listing_env [bytes "b.txt", bytes "a.txt", bytes "c.txt"])
        (const_frames 0) 0).frame_count = names.length ∧
      ∀ i (hi : i < names.length),
        load_frame (listing_env [bytes "b.txt", bytes "a.txt", bytes "c.txt"]).fopen
            (ANIMATION_DIR ++ 47 :: names.get ⟨i, hi⟩) (const_frames 0 i) =
          (1, (load_animation_frames (listing_env [bytes "b.txt", bytes "a.txt", bytes "c.txt"])
            (const_frames 0) 0).frames i) :=
  ⟨rfl, by decide, by decide,
    load_animation_frames_order.1 (listing_env [bytes "b.txt", bytes "a.txt", bytes "c.txt"])
      (const_frames 0) 0 [bytes "b.txt", bytes "a.txt", bytes "c.txt"] rfl (by decide)
      (by decide)⟩


/-! ## Playback loop -/

theorem terminate_rows_content (n i : Nat) (f : Frame) (r c : Nat) :
    (terminate_rows n i f).content r c =
      if i ≤ r ∧ r < i + n ∧ c = TERMINAL_WIDTH then NUL else f.content r c := by
  induction n generalizing i f with
  | zero =>
    have : ¬ (i ≤ r ∧ r < i + 0 ∧ c = TERMINAL_WIDTH) := by omega
    rw [terminate_rows, if_neg this]
  | succ n ih =>
    rw [terminate_rows, ih]
    simp only [Frame.set]
    by_cases h1 : i + 1 ≤ r ∧ r < i + 1 + n ∧ c = TERMINAL_WIDTH
    · rw [if_pos h1, if_pos (by omega)]
    · rw [if_neg h1]
      by_cases h2 : r = i ∧ c = TERMINAL_WIDTH
      · rw [if_pos h2, if_pos (by omega)]
      · rw [if_neg h2, if_neg (by omega)]

/-- The synthetic frame of `run_animation` holds a space in every cell of the grid and the
terminator after each row. -/
theorem empty_frame_content (r c : Nat) (hr : r < TERMINAL_HEIGHT) :
    (c < TERMINAL_WIDTH → empty_frame.content r c = SPACE) ∧
      empty_frame.content r TERMINAL_WIDTH = NUL := by
  constructor
  · intro hc
    rw [empty_frame, terminate_rows_content, if_neg (by omega)]
    simp only [memset_content]
    rw [if_pos (by omega)]
  · rw [empty_frame, terminate_rows_content, if_pos (by omega)]

theorem run_animation_exec_append (frames : Nat → Frame) (n : Nat) (s : Playback)
    (es₁ es₂ : List Event) :
    run_animation_exec frames n s (es₁ ++ es₂) =
      run_animation_exec frames n (run_animation_exec frames n s es₁) es₂ := by
  induction es₁ generalizing s with
  | nil => rfl
  | cons e es ih =>
    cases e with
    | signal => exact ih _
    | step => exact ih _

theorem tick_events_succ (k : Nat) :
    tick_events (k + 1) = tick_events k ++ [Event.step, Event.step] := by
  simp only [tick_events]
  rw [show 2 * (k + 1) = 2 * k + 2 by omega, List.replicate_add]
  rfl

theorem after_ticks_succ (frames : Nat → Frame) (n k : Nat) :
    after_ticks frames n (k + 1) =
      run_animation_step frames n (run_animation_step frames n (after_ticks frames n k)) := by
  rw [after_ticks, tick_events_succ, run_animation_exec_append]
  rfl

/-- A whole tick: the test finds the flag clear and the body runs. -/
theorem run_animation_tick (frames : Nat → Frame) (n : Nat) (s : Playback)
    (h1 : s.pc = Pc.loop_test) (h2 : s.g_running = true) :
    run_animation_step frames n (run_animation_step frames n s) =
      ⟨Pc.loop_test, true, frames s.current_frame_index, (s.current_frame_index + 1) % n,
        s.out ++ display_frame (frames s.current_frame_index) s.previous_frame, s.ticks + 1⟩ := by
  have e : run_animation_step frames n s = { s with pc := Pc.in_tick } := by
    simp only [run_animation_step, h1, h2, if_true]
  rw [e]
  simp only [run_animation_step, h2]

/-- The state at the head of tick `k` while the flag stays clear. -/
theorem after_ticks_state (frames : Nat → Frame) (n k : Nat) :
    (after_ticks frames n k).pc = Pc.loop_test ∧
    (after_ticks frames n k).g_running = true ∧
    (after_ticks frames n k).current_frame_index = k % n ∧
    (after_ticks frames n k).ticks = k ∧
    (after_ticks frames n k).previous_frame =
      (if k = 0 then empty_frame else frames ((k - 1) % n)) := by
  induction k with
  | zero => exact ⟨rfl, rfl, (Nat.zero_mod n).symm, rfl, rfl⟩
  | succ k ih =>
    obtain ⟨h1, h2, h3, h4, _⟩ := ih
    rw [after_ticks_succ, run_animation_tick frames n _ h1 h2]
    refine ⟨rfl, rfl, ?_, ?_, ?_⟩
    · show ((after_ticks frames n k).current_frame_index + 1) % n = (k + 1) % n
      rw [h3, Nat.mod_add_mod]
    · show (after_ticks frames n k).ticks + 1 = k + 1
      rw [h4]
    · show frames (after_ticks frames n k).current_frame_index = _
      rw [h3, if_neg (Nat.succ_ne_zero k), Nat.add_sub_cancel]

/-- What tick `k` sends to the terminal while the flag stays clear. -/
theorem after_ticks_out (frames : Nat → Frame) (n k : Nat) :
    (after_ticks frames n (k + 1)).out =
      (after_ticks frames n k).out ++
        display_frame (frames (k % n)) (after_ticks frames n k).previous_frame := by
  obtain ⟨h1, h2, h3, _, _⟩ := after_ticks_state frames n k
  rw [after_ticks_succ, run_animation_tick frames n _ h1 h2, h3]

/-- C11: while the stop flag stays clear, `run_animation` is at the head of tick `k` after
`k` ticks, with `current_frame_index` equal to `k mod N`, and tick `k` renders frame
`k mod N` against the previous frame and makes it the previous frame; with three frames the
indices displayed over seven ticks are 0, 1, 2, 0, 1, 2, 0. -/
theorem run_animation_cycles :
    (∀ (frames : Nat → Frame) (n k : Nat), 1 ≤ n →
      (after_ticks frames n k).pc = Pc.loop_test ∧
      (after_ticks frames n k).ticks = k ∧
      (after_ticks frames n k).current_frame_index = k % n ∧
      (after_ticks frames n (k + 1)).out =
        (after_ticks frames n k).out ++
          display_frame (frames (k % n)) (after_ticks frames n k).previous_frame ∧
      (after_ticks frames n (k + 1)).previous_frame = frames (k % n)) ∧
    (∀ frames : Nat → Frame,
      (List.range 7).map (fun k => (after_ticks frames 3 k).current_frame_index) =
        [0, 1, 2, 0, 1, 2, 0]) := by
  constructor
  · intro frames n k _
    obtain ⟨h1, _, h3, h4, _⟩ := after_ticks_state frames n k
    refine ⟨h1, h4, h3, after_ticks_out frames n k, ?_⟩
    rw [(after_ticks_state frames n (k + 1)).2.2.2.2, if_neg (Nat.succ_ne_zero k),
      Nat.add_sub_cancel]
  · intro frames
    simp only [List.range, List.range.loop, List.map, (after_ticks_state frames 3 _).2.2.1]

/-- Witness of C11: two frames, the fifth tick. -/
theorem run_animation_cycles_witness :
    1 ≤ 2 ∧ (after_ticks (const_frames 0) 2 5).current_frame_index = 5 % 2 :=
  ⟨by decide, (run_animation_cycles.1 (const_frames 0) 2 5 (by decide)).2.2.1⟩

theorem handle_signal_stopped (s : Playback) (h : s.g_running = false) :
    handle_signal s = s := by
  cases s with
  | mk pc g prev idx out ticks =>
    have hg : g = false := h
    subst hg
    rfl

/-- Once the flag is set, only the program steps of an execution matter. -/
theorem run_animation_exec_stopped (frames : Nat → Frame) (n : Nat) (s : Playback)
    (h : s.g_running = false) (events : List Event) :
    run_animation_exec frames n s events =
      run_animation_steps frames n (events.count Event.step) s ∧
    (run_animation_exec frames n s events).g_running = false := by
  induction events generalizing s with
  | nil => exact ⟨rfl, h⟩
  | cons e es ih =>
    cases e with
    | signal =>
      rw [run_animation_exec, handle_signal_stopped s h]
      have : (Event.signal :: es).count Event.step = es.count Event.step := by
        rw [List.count_cons_of_ne (by decide)]
      rw [this]
      exact ih s h
    | step =>
      rw [run_animation_exec, List.count_cons_self, run_animation_steps]
      have hs : (run_animation_step frames n s).g_running = false := by
        unfold run_animation_step
        cases hp : s.pc <;> simp [h]
      exact ih _ hs

theorem run_animation_steps_returned (frames : Nat → Frame) (n k : Nat) (s : Playback)
    (h : s.pc = Pc.returned) : run_animation_steps frames n k s = s := by
  induction k with
  | zero => rfl
  | succ k ih =>
    rw [run_animation_steps]
    have : run_animation_step frames n s = s := by
      simp only [run_animation_step, h]
    rw [this, ih]

/-- With the flag set, the test of the loop leaves the loop. -/
theorem run_animation_steps_test (frames : Nat → Frame) (n k : Nat) (s : Playback)
    (h : s.g_running = false) (hp : s.pc = Pc.loop_test) :
    run_animation_steps frames n (k + 1) s = { s with pc := Pc.returned } := by
  rw [run_animation_steps]
  have : run_animation_step frames n s = { s with pc := Pc.returned } := by
    simp [run_animation_step, hp, h]
  rw [this, run_animation_steps_returned _ _ _ _ rfl]

/-- With the flag set, a tick in flight completes and the next test leaves the loop. -/
theorem run_animation_steps_tick (frames : Nat → Frame) (n k : Nat) (s : Playback)
    (h : s.g_running = false) (hp : s.pc = Pc.in_tick) :
    run_animation_steps frames n 1 s =
      ⟨Pc.loop_test, false, frames s.current_frame_index, (s.current_frame_index + 1) % n,
        s.out ++ display_frame (frames s.current_frame_index) s.previous_frame, s.ticks + 1⟩ ∧
    run_animation_steps frames n (k + 2) s =
      ⟨Pc.returned, false, frames s.current_frame_index, (s.current_frame_index + 1) % n,
        s.out ++ display_frame (frames s.current_frame_index) s.previous_frame, s.ticks + 1⟩ := by
  have e : run_animation_step frames n s =
      ⟨Pc.loop_test, false, frames s.current_frame_index, (s.current_frame_index + 1) % n,
        s.out ++ display_frame (frames s.current_frame_index) s.previous_frame, s.ticks + 1⟩ := by
    simp [run_animation_step, hp, h]
  constructor
  · rw [run_animation_steps, e]; rfl
  · rw [run_animation_steps, e, run_animation_steps_test _ _ _ _ rfl rfl]

/-- C12: once a signal has set the stop flag, the flag stays set, at most one more tick
completes (the one in flight, if there is one, with its rendering), no tick begins, and the
second program step at the latest leaves the loop; when the flag is already set as the loop
is entered, nothing is rendered. -/
theorem run_animation_stops (frames : Nat → Frame) (n : Nat) (s : Playback)
    (events : List Event) :
    (run_animation_exec frames n s (Event.signal :: events)).g_running = false ∧
    (run_animation_exec frames n s (Event.signal :: events)).ticks ≤ s.ticks + 1 ∧
    (s.pc ≠ Pc.in_tick →
      (run_animation_exec frames n s (Event.signal :: events)).ticks = s.ticks ∧
      (run_animation_exec frames n s (Event.signal :: events)).out = s.out) ∧
    (s.pc = Pc.in_tick → 1 ≤ events.count Event.step →
      (run_animation_exec frames n s (Event.signal :: events)).ticks = s.ticks + 1 ∧
      (run_animation_exec frames n s (Event.signal :: events)).out =
        s.out ++ display_frame (frames s.current_frame_index) s.previous_frame) ∧
    ((run_animation_exec frames n s (Event.signal :: events)).pc = Pc.in_tick →
      s.pc = Pc.in_tick ∧ events.count Event.step = 0 ∧
      (run_animation_exec frames n s (Event.signal :: events)).ticks = s.ticks) ∧
    (2 ≤ events.count Event.step →
      (run_animation_exec frames n s (Event.signal :: events)).pc = Pc.returned) ∧
    (run_animation_exec frames n (run_animation_init false) events).out = [] ∧
    (run_animation_exec frames n (run_animation_init false) events).ticks = 0 ∧
    (run_animation_exec frames n (run_animation_init false) events).pc ≠ Pc.in_tick := by
  have hinit : ∀ c, run_animation_steps frames n c (run_animation_init false) =
      run_animation_init false ∨
      run_animation_steps frames n c (run_animation_init false) =
        { run_animation_init false with pc := Pc.returned } := by
    intro c
    cases c with
    | zero => exact Or.inl rfl
    | succ c => exact Or.inr (run_animation_steps_test frames n c _ rfl rfl)
  have hlast : (run_animation_exec frames n (run_animation_init false) events).out = [] ∧
      (run_animation_exec frames n (run_animation_init false) events).ticks = 0 ∧
      (run_animation_exec frames n (run_animation_init false) events).pc ≠ Pc.in_tick := by
    rw [(run_animation_exec_stopped frames n _ rfl events).1]
    rcases hinit (events.count Event.step) with e | e <;> rw [e] <;>
      exact ⟨rfl, rfl, by decide⟩
  have h0 : (handle_signal s).g_running = false := rfl
  obtain ⟨hexec, hflag⟩ := run_animation_exec_stopped frames n (handle_signal s) h0 events
  rw [run_animation_exec]
  refine ⟨hflag, ?_, ?_, ?_, ?_, ?_, hlast⟩ <;> rw [hexec] <;>
    generalize events.count Event.step = c
  · cases hp : s.pc with
    | returned =>
      rw [run_animation_steps_returned frames n c (handle_signal s) hp]
      exact Nat.le_succ _
    | loop_test =>
      cases c with
      | zero => exact Nat.le_succ _
      | succ c =>
        rw [run_animation_steps_test frames n c (handle_signal s) h0 hp]
        exact Nat.le_succ _
    | in_tick =>
      cases c with
      | zero => exact Nat.le_succ _
      | succ c =>
        cases c with
        | zero => rw [(run_animation_steps_tick frames n 0 (handle_signal s) h0 hp).1]; exact Nat.le_refl _
        | succ c => rw [(run_animation_steps_tick frames n c (handle_signal s) h0 hp).2]; exact Nat.le_refl _
  · intro hne
    cases hp : s.pc with
    | returned =>
      rw [run_animation_steps_returned frames n c (handle_signal s) hp]
      exact ⟨rfl, rfl⟩
    | loop_test =>
      cases c with
      | zero => exact ⟨rfl, rfl⟩
      | succ c =>
        rw [run_animation_steps_test frames n c (handle_signal s) h0 hp]
        exact ⟨rfl, rfl⟩
    | in_tick => exact absurd hp hne
  · intro hp hc
    cases c with
    | zero => omega
    | succ c =>
      cases c with
      | zero => rw [(run_animation_steps_tick frames n 0 (handle_signal s) h0 hp).1]; exact ⟨rfl, rfl⟩
      | succ c => rw [(run_animation_steps_tick frames n c (handle_signal s) h0 hp).2]; exact ⟨rfl, rfl⟩
  · intro hpc
    cases hp : s.pc with
    | returned =>
      rw [run_animation_steps_returned frames n c (handle_signal s) hp] at hpc
      exact absurd (hp.symm.trans hpc) (by decide)
    | loop_test =>
      cases c with
      | zero => exact absurd (hp.symm.trans hpc) (by decide)
      | succ c =>
        rw [run_animation_steps_test frames n c (handle_signal s) h0 hp] at hpc
        cases hpc
    | in_tick =>
      cases c with
      | zero => exact ⟨rfl, rfl, rfl⟩
      | succ c =>
        cases c with
        | zero =>
          rw [(run_animation_steps_tick frames n 0 (handle_signal s) h0 hp).1] at hpc
          cases hpc
        | succ c =>
          rw [(run_animation_steps_tick frames n c (handle_signal s) h0 hp).2] at hpc
          cases hpc
  · intro hc
    cases hp : s.pc with
    | returned =>
      rw [run_animation_steps_returned frames n c (handle_signal s) hp]
      exact hp
    | loop_test =>
      cases c with
      | zero => omega
      | succ c => rw [run_animation_steps_test frames n c (handle_signal s) h0 hp]
    | in_tick =>
      cases c with
      | zero => omega
      | succ c =>
        cases c with
        | zero => omega
        | succ c => rw [(run_animation_steps_tick frames n c (handle_signal s) h0 hp).2]

/-- Witness of C12: three frames, a signal during the second tick, and four more program
steps: the tick in flight completes and the loop is left. -/
theorem run_animation_stops_witness :
    (run_animation_exec (const_frames 0) 3 (run_animation_init true)
      [Event.step, Event.step, Event.step]).pc = Pc.in_tick ∧
    1 ≤ [Event.step, Event.step, Event.step, Event.step].count Event.step ∧
    (run_animation_exec (const_frames 0) 3
      (run_animation_exec (const_frames 0) 3 (run_animation_init true)
        [Event.step, Event.step, Event.step])
      (Event.signal :: [Event.step, Event.step, Event.step, Event.step])).ticks = 1 + 1 ∧
    (run_animation_exec (const_frames 0) 3
      (run_animation_exec (const_frames 0) 3 (run_animation_init true)
        [Event.step, Event.step, Event.step])
      (Event.signal :: [Event.step, Event.step, Event.step, Event.step])).pc = Pc.returned :=
  ⟨rfl, by decide,
    ((run_animation_stops (const_frames 0) 3
      (run_animation_exec (const_frames 0) 3 (run_animation_init true)
        [Event.step, Event.step, Event.step])
      [Event.step, Event.step, Event.step, Event.step]).2.2.2.1 rfl (by decide)).1,
    (run_animation_stops (const_frames 0) 3
      (run_animation_exec (const_frames 0) 3 (run_animation_init true)
        [Event.step, Event.step, Event.step])
      [Event.step, Event.step, Event.step, Event.step]).2.2.2.2.2.1 (by decide)⟩

theorem load_animation_frames_opened (env : Env) (frames : Nat → Frame) (frame_count : Nat)
    (hret : (load_animation_frames env frames frame_count).ret = 1) :
    ∃ entries, env.opendir ANIMATION_DIR = some entries := by
  cases h : env.opendir ANIMATION_DIR with
  | none => simp [load_animation_frames, h] at hret
  | some entries => exact ⟨entries, rfl⟩

/-- The names stored by the reading loop never exceed `MAX_FRAMES`. -/
theorem read_entries_length_le (malloc : Nat → Bool) (entries g g' : List (List Nat))
    (h : read_entries malloc entries g = (true, g')) (hg : g.length ≤ MAX_FRAMES) :
    g'.length ≤ MAX_FRAMES := by
  rw [read_entries_eq malloc entries g g' h, List.length_append, List.length_map,
    List.length_take]
  omega

theorem run_animation_step_index (frames : Nat → Frame) (n : Nat) (s : Playback)
    (h : s.current_frame_index < n) :
    (run_animation_step frames n s).current_frame_index < n := by
  unfold run_animation_step
  cases hp : s.pc with
  | loop_test =>
    simp only
    split <;> exact h
  | in_tick => exact Nat.mod_lt _ (by omega)
  | returned => exact h

/-- The index of the frame to display stays below `frame_count` whatever happens. -/
theorem run_animation_exec_index (frames : Nat → Frame) (n : Nat) (s : Playback)
    (events : List Event) (h : s.current_frame_index < n) :
    (run_animation_exec frames n s events).current_frame_index < n := by
  induction events generalizing s with
  | nil => exact h
  | cons e es ih =>
    cases e with
    | signal => exact ih (handle_signal s) h
    | step => exact ih _ (run_animation_step_index frames n s h)

/-- C16: when `load_animation_frames` succeeds the frame count `N` satisfies
`1 ≤ N ≤ MAX_FRAMES`, and in every execution of `run_animation` on that count, whatever the
flag holds at entry and whenever signals arrive, `current_frame_index` stays below `N`: the
modulo has a divisor that is not zero and `frames[current_frame_index]` is inside the array
of `MAX_FRAMES` frames. -/
theorem run_animation_index_in_range (env : Env) (frames : Nat → Frame) (frame_count : Nat)
    (hret : (load_animation_frames env frames frame_count).ret = 1) :
    1 ≤ (load_animation_frames env frames frame_count).frame_count ∧
    (load_animation_frames env frames frame_count).frame_count ≤ MAX_FRAMES ∧
    ∀ (g_running : Bool) (events : List Event),
      (run_animation_exec (load_animation_frames env frames frame_count).frames
        (load_animation_frames env frames frame_count).frame_count
        (run_animation_init g_running) events).current_frame_index <
        (load_animation_frames env frames frame_count).frame_count ∧
      (run_animation_exec (load_animation_frames env frames frame_count).frames
        (load_animation_frames env frames frame_count).frame_count
        (run_animation_init g_running) events).current_frame_index < MAX_FRAMES := by
  obtain ⟨entries, hdir⟩ := load_animation_frames_opened env frames frame_count hret
  obtain ⟨g, hre, h0, _, hres⟩ :=
    load_animation_frames_success env frames frame_count entries hdir hret
  have hle := read_entries_length_le env.malloc entries [] g hre (Nat.zero_le _)
  rw [hres]
  simp only
  refine ⟨by omega, hle, fun b events => ?_⟩
  have := run_animation_exec_index
    (load_each env.fopen (qsort compare_filenames g) 0 frames).2 g.length
    (run_animation_init b) events (by show 0 < g.length; omega)
  exact ⟨this, by omega⟩

/-- Witness of C16: a directory with three frames. -/
theorem run_animation_index_in_range_witness :
    (load_animation_frames (listing_env [bytes "b.txt", bytes "a.txt", bytes "c.txt"])
      (const_frames 0) 0).ret = 1 ∧
    1 ≤ (load_animation_frames (listing_env [bytes "b.txt", bytes "a.txt", bytes "c.txt"])
      (const_frames 0) 0).frame_count ∧
    (load_animation_frames (listing_env [bytes "b.txt", bytes "a.txt", bytes "c.txt"])
      (const_frames 0) 0).frame_count ≤ MAX_FRAMES :=
  ⟨by decide,
    (run_animation_index_in_range (listing_env [bytes "b.txt", bytes "a.txt", bytes "c.txt"])
      (const_frames 0) 0 (by decide)).1,
    (run_animation_index_in_range (listing_env [bytes "b.txt", bytes "a.txt", bytes "c.txt"])
      (const_frames 0) 0 (by decide)).2.1⟩

/-- A surface that shows the previous frame shows the current one after the rendering. -/
theorem run_display_frame_shows (previous current : Frame) (s : Surface)
    (h : ∀ r c, r < TERMINAL_HEIGHT → c < TERMINAL_WIDTH →
      s.cells r c = previous.content r c) (r c : Nat)
    (hr : r < TERMINAL_HEIGHT) (hc : c < TERMINAL_WIDTH) :
    (s.run (display_frame current previous)).cells r c = current.content r c := by
  rw [run_display_frame]
  split
  · rfl
  · next hn =>
    rw [mem_changed_cells] at hn
    rw [h r c hr hc]
    by_contra hne
    exact hn ⟨hr, hc, fun e => hne e.symm⟩

/-- While the flag stays clear the surface shows the frame `previous_frame` points to. -/
theorem after_ticks_surface (frames : Nat → Frame) (n k : Nat) (s : Surface)
    (hs : ∀ r c, r < TERMINAL_HEIGHT → c < TERMINAL_WIDTH → s.cells r c = SPACE)
    (r c : Nat) (hr : r < TERMINAL_HEIGHT) (hc : c < TERMINAL_WIDTH) :
    (s.run (after_ticks frames n k).out).cells r c =
      (after_ticks frames n k).previous_frame.content r c := by
  induction k generalizing r c with
  | zero =>
    show s.cells r c = empty_frame.content r c
    rw [hs r c hr hc, (empty_frame_content r c hr).1 hc]
  | succ k ih =>
    rw [after_ticks_out, run_append,
      run_display_frame_shows _ _ _ (fun r c hr hc => ih r c hr hc) r c hr hc,
      (after_ticks_state frames n (k + 1)).2.2.2.2, if_neg (Nat.succ_ne_zero k),
      Nat.add_sub_cancel]

/-- C18: the synthetic previous frame holds a space in each of the 24 x 80 cells; from a
cleared surface, with at least one frame and the flag clear, the surface shows frame
`k mod N` in every cell once tick `k` completes; tick `k` is rendered against the synthetic
frame when `k = 0` and against frame `(k - 1) mod N` otherwise; so the first tick leaves
frame 0 displayed in full and the tick that wraps around renders frame 0 against frame
`N - 1`. -/
theorem run_animation_screen (frames : Nat → Frame) (n k : Nat) (s : Surface) (hn : 1 ≤ n)
    (hs : ∀ r c, r < TERMINAL_HEIGHT → c < TERMINAL_WIDTH → s.cells r c = SPACE) :
    (∀ r c, r < TERMINAL_HEIGHT → c < TERMINAL_WIDTH → empty_frame.content r c = SPACE) ∧
    (∀ r c, r < TERMINAL_HEIGHT → c < TERMINAL_WIDTH →
      (s.run (after_ticks frames n (k + 1)).out).cells r c = (frames (k % n)).content r c) ∧
    (after_ticks frames n (k + 1)).out =
      (after_ticks frames n k).out ++
        display_frame (frames (k % n))
          (if k = 0 then empty_frame else frames ((k - 1) % n)) ∧
    (∀ r c, r < TERMINAL_HEIGHT → c < TERMINAL_WIDTH →
      (s.run (after_ticks frames n 1).out).cells r c = (frames 0).content r c) ∧
    (after_ticks frames n (n + 1)).out =
      (after_ticks frames n n).out ++ display_frame (frames 0) (frames (n - 1)) := by
  have hshow : ∀ j r c, r < TERMINAL_HEIGHT → c < TERMINAL_WIDTH →
      (s.run (after_ticks frames n (j + 1)).out).cells r c = (frames (j % n)).content r c := by
    intro j r c hr hc
    rw [after_ticks_surface frames n (j + 1) s hs r c hr hc,
      (after_ticks_state frames n (j + 1)).2.2.2.2, if_neg (Nat.succ_ne_zero j),
      Nat.add_sub_cancel]
  have hout : ∀ j, (after_ticks frames n (j + 1)).out =
      (after_ticks frames n j).out ++
        display_frame (frames (j % n))
          (if j = 0 then empty_frame else frames ((j - 1) % n)) := by
    intro j
    rw [after_ticks_out, (after_ticks_state frames n j).2.2.2.2]
  refine ⟨fun r c hr hc => (empty_frame_content r c hr).1 hc, hshow k, hout k, ?_, ?_⟩
  · intro r c hr hc
    have := hshow 0 r c hr hc
    rwa [Nat.zero_mod] at this
  · rw [hout n, Nat.mod_self, if_neg (by omega), Nat.mod_eq_of_lt (by omega)]

/-- Witness of C18: a cleared surface, two frames, the fourth tick. -/
theorem run_animation_screen_witness :
    1 ≤ 2 ∧
    (∀ r c, r < TERMINAL_HEIGHT → c < TERMINAL_WIDTH →
      (Surface.mk 0 0 (fun _ _ => SPACE)).cells r c = SPACE) ∧
    ((Surface.mk 0 0 (fun _ _ => SPACE)).run
      (after_ticks (fun i => const_frame (111 + i)) 2 (3 + 1)).out).cells 5 7 =
      ((fun i => const_frame (111 + i)) (3 % 2)).content 5 7 :=
  ⟨by decide, fun _ _ _ _ => rfl,
    (run_animation_screen (fun i => const_frame (111 + i)) 2 3
      (Surface.mk 0 0 (fun _ _ => SPACE)) (by decide) (fun _ _ _ _ => rfl)).2.1 5 7
      (by decide) (by decide)⟩

/-! ## Comparison of file names and rows as strings -/

theorem lex_lt_asymm {a b : List Nat} (h1 : lex_lt a b) (h2 : lex_lt b a) : False :=
  IsAsymm.asymm (r := List.Lex (fun x y : Nat => x < y)) a b h1 h2

/-- C20: `compare_filenames` orders the strings its arguments point to byte-wise
lexicographically: it is negative exactly when the first string strictly precedes the
second, zero exactly when the two strings are equal, positive exactly when the reverse
comparison is negative, and `≤ 0` is transitive; on lists without NUL the strings are the
lists themselves; `frame01.txt` comes before `frame02.txt` and equals itself. -/
theorem compare_filenames_order (a b c : List Nat) :
    (compare_filenames a b < 0 ↔ lex_lt (cstr a) (cstr b)) ∧
    (compare_filenames a b = 0 ↔ cstr a = cstr b) ∧
    (0 < compare_filenames a b ↔ compare_filenames b a < 0) ∧
    (compare_filenames a b ≤ 0 → compare_filenames b c ≤ 0 → compare_filenames a c ≤ 0) ∧
    (NUL ∉ a → NUL ∉ b →
      (compare_filenames a b < 0 ↔ lex_lt a b) ∧ (compare_filenames a b = 0 ↔ a = b)) ∧
    compare_filenames (bytes "frame01.txt") (bytes "frame02.txt") < 0 ∧
    0 < compare_filenames (bytes "frame02.txt") (bytes "frame01.txt") ∧
    compare_filenames (bytes "frame01.txt") (bytes "frame01.txt") = 0 := by
  obtain ⟨h1, h2, h3⟩ := strcmp_sign a b
  refine ⟨h1, h2, ?_, compare_filenames_trans a b c, ?_, by decide, by decide, by decide⟩
  · unfold compare_filenames
    rw [h3, (strcmp_sign b a).1]
  · intro ha hb
    unfold compare_filenames
    rw [h1, h2, cstr_of_not_mem a ha, cstr_of_not_mem b hb]
    exact ⟨Iff.rfl, Iff.rfl⟩

/-- Witness of C20: two names without NUL. -/
theorem compare_filenames_order_witness :
    NUL ∉ bytes "a.txt" ∧ NUL ∉ bytes "b.txt" ∧
    (compare_filenames (bytes "a.txt") (bytes "b.txt") < 0 ↔
      lex_lt (bytes "a.txt") (bytes "b.txt")) :=
  ⟨by decide, by decide,
    ((compare_filenames_order (bytes "a.txt") (bytes "b.txt") []).2.2.2.2.1 (by decide)
      (by decide)).1⟩

/-- The length of a string whose first `n` bytes are not NUL and whose next byte is. -/
theorem strlen_eq (l : List Nat) (n : Nat) (hlt : ∀ j, j < n → l.getD j NUL ≠ NUL)
    (hz : l.getD n NUL = NUL) : strlen l = n := by
  induction l generalizing n with
  | nil =>
    cases n with
    | zero => rfl
    | succ n => exact absurd (by simp) (hlt 0 (Nat.succ_pos n))
  | cons b t ih =>
    cases n with
    | zero =>
      have : b = NUL := by simpa using hz
      rw [strlen, if_pos this]
    | succ n =>
      have hb : b ≠ NUL := by simpa using hlt 0 (Nat.succ_pos n)
      rw [strlen, if_neg hb, ih n (fun j hj => by simpa using hlt (j + 1) (by omega))
        (by simpa using hz)]

/-- C19: after a successful `load_frame`, whatever bytes the source holds, in every row
`i < 24` none of the cells 0..79 holds a NUL or an LF and the cell at index 80 is NUL, so the
row read as a C string has length exactly 80. -/
theorem load_frame_rows_are_strings (fopen : List Nat → Option (List Nat))
    (filename file : List Nat) (frame : Frame) (h : fopen filename = some file)
    (i : Nat) (hi : i < TERMINAL_HEIGHT) :
    (load_frame fopen filename frame).1 = 1 ∧
    (∀ c, c < TERMINAL_WIDTH →
      (load_frame fopen filename frame).2.content i c ≠ NUL ∧
      (load_frame fopen filename frame).2.content i c ≠ LF) ∧
    (load_frame fopen filename frame).2.content i TERMINAL_WIDTH = NUL ∧
    strlen ((List.range (TERMINAL_WIDTH + 1)).map
      ((load_frame fopen filename frame).2.content i)) = TERMINAL_WIDTH := by
  have hcells : ∀ c, c < TERMINAL_WIDTH →
      (load_frame fopen filename frame).2.content i c ≠ NUL ∧
      (load_frame fopen filename frame).2.content i c ≠ LF := by
    intro c hc
    rw [load_frame_content fopen filename file frame h i c hi (Nat.le_of_lt hc)]
    rcases row_cell_space_or_mem (after_reads i file) c hc with h1 | ⟨_, h2, h3⟩
    · rw [h1]; exact ⟨by decide, by decide⟩
    · exact ⟨h2, h3⟩
  have hterm : (load_frame fopen filename frame).2.content i TERMINAL_WIDTH = NUL := by
    rw [load_frame_content fopen filename file frame h i _ hi (Nat.le_refl _),
      row_cell_terminator]
  refine ⟨by rw [load_frame, h], hcells, hterm, ?_⟩
  apply strlen_eq
  · intro j hj
    have hj2 : j < (List.range (TERMINAL_WIDTH + 1)).length := by
      rw [List.length_range]; omega
    rw [List.getD_eq_getElem?_getD, List.getElem?_map, List.getElem?_eq_getElem hj2,
      List.getElem_range]
    exact (hcells j hj).1
  · have hj2 : TERMINAL_WIDTH < (List.range (TERMINAL_WIDTH + 1)).length := by
      rw [List.length_range]; omega
    rw [List.getD_eq_getElem?_getD, List.getElem?_map, List.getElem?_eq_getElem hj2,
      List.getElem_range]
    exact hterm

/-- Witness of C19: a source with a NUL byte and a line longer than the read buffer. -/
theorem load_frame_rows_are_strings_witness :
    one_file (97 :: 0 :: List.replicate 200 98) (bytes "anim/a.txt") =
      some (97 :: 0 :: List.replicate 200 98) ∧
    1 < TERMINAL_HEIGHT ∧
    strlen ((List.range (TERMINAL_WIDTH + 1)).map
      ((load_frame (one_file (97 :: 0 :: List.replicate 200 98)) (bytes "anim/a.txt")
        (const_frame 0)).2.content 1)) = TERMINAL_WIDTH :=
  ⟨rfl, by decide,
    (load_frame_rows_are_strings (one_file (97 :: 0 :: List.replicate 200 98))
      (bytes "anim/a.txt") (97 :: 0 :: List.replicate 200 98) (const_frame 0) rfl 1
      (by decide)).2.2.2⟩

/-! ## Selection, failure and determinism of the frame set loader -/

/-- The reading loop succeeds exactly when every allocation it makes succeeds: one for each
entry it selects. -/
theorem read_entries_fst (malloc : Nat → Bool) (entries g : List (List Nat)) :
    (read_entries malloc entries g).1 = true ↔
      ∀ k, g.length ≤ k →
        k < g.length + min (entries.filter (fun n => decide (n.headD NUL ≠ 46))).length
          (MAX_FRAMES - g.length) →
        malloc k = true := by
  induction entries generalizing g with
  | nil =>
    simp only [read_entries, List.filter_nil, List.length_nil, Nat.zero_min, Nat.add_zero,
      true_iff]
    intro k hk1 hk2
    omega
  | cons d rest ih =>
    rw [read_entries]
    by_cases hlen : g.length < MAX_FRAMES
    · rw [if_pos hlen]
      by_cases hdot : d.headD NUL ≠ 46
      · rw [if_pos hdot, List.filter_cons_of_pos (by simpa using hdot), List.length_cons]
        cases hm : malloc g.length with
        | false =>
          simp only [Bool.false_eq_true, if_false]
          constructor
          · intro h; cases h
          · intro h
            have := h g.length (Nat.le_refl _) (by omega)
            rw [hm] at this
            cases this
        | true =>
          simp only [if_true]
          rw [ih, List.length_append, List.length_singleton]
          constructor
          · intro h k hk1 hk2
            by_cases hk : k = g.length
            · rw [hk]; exact hm
            · exact h k (by omega) (by omega)
          · intro h k hk1 hk2
            exact h k (by omega) (by omega)
      · rw [if_neg hdot, List.filter_cons_of_neg (by simpa using hdot)]
        exact ih g
    · rw [if_neg hlen]
      constructor
      · intro _ k hk1 hk2
        omega
      · intro _; rfl

theorem read_entries_of_fst (malloc : Nat → Bool) (entries : List (List Nat))
    (h : (read_entries malloc entries []).1 = true) :
    read_entries malloc entries [] =
      (true, (selected entries).map (snprintf_path MAX_FILENAME_LENGTH ANIMATION_DIR)) := by
  have e : read_entries malloc entries [] = (true, (read_entries malloc entries []).2) := by
    rw [← h]
  have := read_entries_eq malloc entries [] _ e
  rw [List.nil_append, List.length_nil, Nat.sub_zero] at this
  rw [e, this]
  rfl

theorem selected_length (entries : List (List Nat)) :
    (selected entries).length =
      min (entries.filter (fun n => decide (n.headD NUL ≠ 46))).length MAX_FRAMES := by
  rw [selected, List.length_take, Nat.min_comm]

theorem load_frame_fst_eq_zero (fopen : List Nat → Option (List Nat)) (filename : List Nat)
    (frame : Frame) : (load_frame fopen filename frame).1 = 0 ↔ fopen filename = none := by
  rw [load_frame]
  cases fopen filename with
  | none => simp
  | some file => simp

/-- The loading loop returns 0 or 1, and 0 exactly when one of the names cannot be opened. -/
theorem load_each_fst (fopen : List Nat → Option (List Nat)) (names : List (List Nat))
    (i : Nat) (frames : Nat → Frame) :
    ((load_each fopen names i frames).1 = 0 ∨ (load_each fopen names i frames).1 = 1) ∧
    ((load_each fopen names i frames).1 = 0 ↔ ∃ n ∈ names, fopen n = none) := by
  induction names generalizing i frames with
  | nil => simp [load_each]
  | cons name rest ih =>
    rw [load_each]
    by_cases h0 : (load_frame fopen name (frames i)).1 = 0
    · rw [if_pos h0]
      refine ⟨Or.inl rfl, ?_⟩
      simp only [true_iff]
      exact ⟨name, List.mem_cons_self _ _, (load_frame_fst_eq_zero _ _ _).1 h0⟩
    · rw [if_neg h0]
      obtain ⟨ih1, ih2⟩ := ih (i + 1)
        (Function.update frames i (load_frame fopen name (frames i)).2)
      refine ⟨ih1, ?_⟩
      rw [ih2]
      constructor
      · rintro ⟨n, hn, hf⟩
        exact ⟨n, List.mem_cons_of_mem _ hn, hf⟩
      · rintro ⟨n, hn, hf⟩
        rcases List.mem_cons.1 hn with rfl | hn
        · exact absurd ((load_frame_fst_eq_zero _ _ _).2 hf) h0
        · exact ⟨n, hn, hf⟩

/-- What `load_animation_frames` leaves once the directory is open and every allocation
has succeeded. -/
theorem load_animation_frames_read (env : Env) (frames : Nat → Frame) (frame_count : Nat)
    (entries : List (List Nat)) (hdir : env.opendir ANIMATION_DIR = some entries)
    (hread : (read_entries env.malloc entries []).1 = true) :
    load_animation_frames env frames frame_count =
      if ((selected entries).map (snprintf_path MAX_FILENAME_LENGTH ANIMATION_DIR)).length = 0
      then ⟨0, 0, (selected entries).map (snprintf_path MAX_FILENAME_LENGTH ANIMATION_DIR),
        frames⟩
      else
        ⟨(load_each env.fopen (qsort compare_filenames
            ((selected entries).map (snprintf_path MAX_FILENAME_LENGTH ANIMATION_DIR)))
            0 frames).1,
          ((selected entries).map (snprintf_path MAX_FILENAME_LENGTH ANIMATION_DIR)).length,
          qsort compare_filenames
            ((selected entries).map (snprintf_path MAX_FILENAME_LENGTH ANIMATION_DIR)),
          (load_each env.fopen (qsort compare_filenames
            ((selected entries).map (snprintf_path MAX_FILENAME_LENGTH ANIMATION_DIR)))
            0 frames).2⟩ := by
  simp only [load_animation_frames, hdir, read_entries_of_fst env.malloc entries hread]

theorem mem_selected (entries : List (List Nat)) (n : List Nat) (h : n ∈ selected entries) :
    n ∈ entries ∧ n.headD NUL ≠ 46 := by
  have := List.mem_filter.1 (List.mem_of_mem_take h)
  exact ⟨this.1, by simpa using this.2⟩

/-- C14: `load_animation_frames` returns 0 or 1, and it returns 0 exactly when the
directory cannot be opened, or an allocation for one of the names it selects fails, or no
entry qualifies, or one of the selected entries cannot be loaded; a directory that holds
only `.` and `..` fails, and so does one with three frames of which only `b.txt` cannot be
opened. -/
theorem load_animation_frames_fails_iff (env : Env) (frames : Nat → Frame)
    (frame_count : Nat) :
    ((load_animation_frames env frames frame_count).ret = 0 ∨
      (load_animation_frames env frames frame_count).ret = 1) ∧
    ((load_animation_frames env frames frame_count).ret = 0 ↔
      env.opendir ANIMATION_DIR = none ∨
      ∃ entries, env.opendir ANIMATION_DIR = some entries ∧
        ((∃ k, k < min (entries.filter (fun n => decide (n.headD NUL ≠ 46))).length
            MAX_FRAMES ∧ env.malloc k = false) ∨
          (entries.filter (fun n => decide (n.headD NUL ≠ 46))).length = 0 ∨
          ∃ n ∈ (entries.filter (fun n => decide (n.headD NUL ≠ 46))).take MAX_FRAMES,
            ∀ frame : Frame,
              (load_frame env.fopen (snprintf_path MAX_FILENAME_LENGTH ANIMATION_DIR n)
                frame).1 = 0)) ∧
    (load_animation_frames (listing_env [bytes ".", bytes ".."]) (const_frames 0) 0).ret = 0 ∧
    (load_animation_frames
      ⟨fun _ => some [bytes "a.txt", bytes "b.txt", bytes "c.txt"],
        fun p => if p = bytes "anim/b.txt" then none else some [],
        fun _ => true⟩ (const_frames 0) 0).ret = 0 := by
  refine ⟨?_, ?_, by decide, by decide⟩
  · cases hdir : env.opendir ANIMATION_DIR with
    | none => left; simp [load_animation_frames, hdir]
    | some entries =>
      cases hre : read_entries env.malloc entries [] with
      | mk ok g =>
        cases ok with
        | false => left; simp [load_animation_frames, hdir, hre]
        | true =>
          rw [load_animation_frames_read env frames frame_count entries hdir (by rw [hre])]
          split
          · exact Or.inl rfl
          · exact (load_each_fst _ _ _ _).1
  · cases hdir : env.opendir ANIMATION_DIR with
    | none => simp [load_animation_frames, hdir]
    | some entries =>
      simp only [false_or, Option.some.injEq, exists_eq_left', reduceCtorEq]
      by_cases hread : (read_entries env.malloc entries []).1 = true
      · have hall := (read_entries_fst env.malloc entries []).1 hread
        rw [load_animation_frames_read env frames frame_count entries hdir hread]
        by_cases h0 : ((selected entries).map
            (snprintf_path MAX_FILENAME_LENGTH ANIMATION_DIR)).length = 0
        · rw [if_pos h0]
          simp only [true_iff]
          right; left
          rw [List.length_map, selected_length] at h0
          have : MAX_FRAMES = 20 := rfl
          omega
        · rw [if_neg h0]
          simp only
          rw [(load_each_fst _ _ _ _).2]
          rw [List.length_map, selected_length] at h0
          constructor
          · rintro ⟨p, hp, hnone⟩
            obtain ⟨m, hm, rfl⟩ := List.mem_map.1 ((qsort_perm _).mem_iff.1 hp)
            exact Or.inr (Or.inr ⟨m, hm, fun f => (load_frame_fst_eq_zero _ _ f).2 hnone⟩)
          · rintro (⟨k, hk, hf⟩ | hq | ⟨m, hm, hf⟩)
            · have := hall k (Nat.zero_le _) (by rw [List.length_nil]; omega)
              rw [hf] at this
              cases this
            · omega
            · exact ⟨_, (qsort_perm _).mem_iff.2 (List.mem_map_of_mem _ hm),
                (load_frame_fst_eq_zero _ _ _).1 (hf (frames 0))⟩
      · have hfail : (load_animation_frames env frames frame_count).ret = 0 := by
          cases hre : read_entries env.malloc entries [] with
          | mk ok g =>
            cases ok with
            | false => simp [load_animation_frames, hdir, hre]
            | true => rw [hre] at hread; exact absurd rfl hread
        rw [hfail]
        simp only [true_iff]
        left
        rw [read_entries_fst] at hread
        push_neg at hread
        obtain ⟨k, _, hk2, hk3⟩ := hread
        refine ⟨k, by rw [List.length_nil] at hk2; omega, ?_⟩
        cases hm : env.malloc k with
        | false => rfl
        | true => exact absurd hm hk3

/-- Witness of C14: a directory that cannot be opened. -/
theorem load_animation_frames_fails_iff_witness :
    (Env.mk (fun _ => none) (fun _ => some []) (fun _ => true)).opendir ANIMATION_DIR = none ∧
    (load_animation_frames (Env.mk (fun _ => none) (fun _ => some []) (fun _ => true))
      (const_frames 0) 0).ret = 0 :=
  ⟨rfl,
    (load_animation_frames_fails_iff (Env.mk (fun _ => none) (fun _ => some []) (fun _ => true))
      (const_frames 0) 0).2.1.2 (Or.inl rfl)⟩

theorem compare_filenames_antisymm (a b : List Nat) (ha : NUL ∉ a) (hb : NUL ∉ b)
    (h1 : compare_filenames a b ≤ 0) (h2 : compare_filenames b a ≤ 0) : a = b := by
  unfold compare_filenames at h1 h2
  rw [strcmp_le_iff, cstr_of_not_mem a ha, cstr_of_not_mem b hb] at h1 h2
  rcases h1 with h1 | h1
  · exact h1
  · rcases h2 with h2 | h2
    · exact h2.symm
    · exact absurd (lex_lt_asymm h1 h2) id

/-- Two sorted lists with the same elements are equal when the order is antisymmetric on
these elements. -/
theorem sorted_perm_unique (r : List Nat → List Nat → Prop) (l₁ l₂ : List (List Nat))
    (hp : l₁.Perm l₂) (hs₁ : l₁.Pairwise r) (hs₂ : l₂.Pairwise r)
    (hanti : ∀ a ∈ l₁, ∀ b ∈ l₁, r a b → r b a → a = b) : l₁ = l₂ := by
  induction l₁ generalizing l₂ with
  | nil => exact hp.nil_eq
  | cons a t ih =>
    cases l₂ with
    | nil => exact absurd hp.eq_nil (List.cons_ne_nil _ _)
    | cons b t₂ =>
      have hab : a = b := by
        have hb : b ∈ a :: t := hp.symm.subset (List.mem_cons_self _ _)
        have ha : a ∈ b :: t₂ := hp.subset (List.mem_cons_self _ _)
        rcases List.mem_cons.1 hb with e | hbt
        · exact e.symm
        · rcases List.mem_cons.1 ha with e | hat
          · exact e
          · exact hanti a (List.mem_cons_self _ _) b hb
              ((List.pairwise_cons.1 hs₁).1 b hbt) ((List.pairwise_cons.1 hs₂).1 a hat)
      subst hab
      rw [ih t₂ ((List.perm_cons a).1 hp) (List.pairwise_cons.1 hs₁).2
        (List.pairwise_cons.1 hs₂).2
        (fun x hx y hy => hanti x (List.mem_cons_of_mem _ hx) y (List.mem_cons_of_mem _ hy))]

theorem snprintf_path_no_nul (n : List Nat) (h : NUL ∉ n) :
    NUL ∉ snprintf_path MAX_FILENAME_LENGTH ANIMATION_DIR n := by
  intro hm
  have := List.mem_of_mem_take hm
  rcases List.mem_append.1 this with h1 | h1
  · exact absurd h1 (by decide)
  · rcases List.mem_cons.1 h1 with h2 | h2
    · exact absurd h2 (by decide)
    · exact h h2

/-- Sorting two enumerations of the same names without NUL gives the same list. -/
theorem qsort_perm_eq (g₁ g₂ : List (List Nat)) (hp : g₁.Perm g₂) (hnul : ∀ p ∈ g₁, NUL ∉ p) :
    qsort compare_filenames g₁ = qsort compare_filenames g₂ := by
  apply sorted_perm_unique (fun a b => compare_filenames a b ≤ 0)
  · exact (qsort_perm g₁).trans (hp.trans (qsort_perm g₂).symm)
  · exact qsort_sorted g₁
  · exact qsort_sorted g₂
  · intro a ha b hb
    exact compare_filenames_antisymm a b (hnul a ((qsort_perm g₁).mem_iff.1 ha))
      (hnul b ((qsort_perm g₁).mem_iff.1 hb))

/-- Counterexample to C15 as stated: a directory holds the 21 names `a` to `u`; when
`readdir` yields them in ascending order the frames `anim/a` to `anim/t` are loaded, and
when it yields the same entries in descending order the frames `anim/b` to `anim/u` are;
and when each file holds its own letter, the first frame loaded shows `a` in one order and
`b` in the other. -/
theorem readdir_order_changes_frames :
    letters.reverse.Perm letters ∧
    (load_animation_frames (listing_env letters) (const_frames 0) 0).ret = 1 ∧
    (load_animation_frames (listing_env letters.reverse) (const_frames 0) 0).ret = 1 ∧
    (load_animation_frames (listing_env letters) (const_frames 0) 0).g_filenames =
      (List.range 20).map (fun i => bytes "anim/" ++ [97 + i]) ∧
    (load_animation_frames (listing_env letters.reverse) (const_frames 0) 0).g_filenames =
      (List.range 20).map (fun i => bytes "anim/" ++ [98 + i]) ∧
    (load_animation_frames (listing_env letters) (const_frames 0) 0).g_filenames ≠
      (load_animation_frames (listing_env letters.reverse) (const_frames 0) 0).g_filenames ∧
    (load_animation_frames (named_env letters) (const_frames 0) 0).ret = 1 ∧
    (load_animation_frames (named_env letters.reverse) (const_frames 0) 0).ret = 1 ∧
    ((load_animation_frames (named_env letters) (const_frames 0) 0).frames 0).content 0 0
      = 97 ∧
    ((load_animation_frames (named_env letters.reverse) (const_frames 0) 0).frames 0).content
      0 0 = 98 ∧
    (load_animation_frames (named_env letters) (const_frames 0) 0).frames 0 ≠
      (load_animation_frames (named_env letters.reverse) (const_frames 0) 0).frames 0 := by
  refine ⟨List.reverse_perm letters, by decide, by decide, by decide, by decide, by decide,
    by decide, by decide, by decide, by decide, ?_⟩
  intro h
  have h2 := congrArg (fun f => f.content 0 0) h
  revert h2
  decide

/-- C15, as amended: when at most `MAX_FRAMES` entries qualify, the result of a successful
`load_animation_frames` is determined by the set of entries alone: if `readdir` yields the
same entries (names without NUL) in another order, with the same files and allocations,
the call leaves the same result, with the same names and frames in the same order. -/
theorem load_animation_frames_deterministic (opendir₁ opendir₂ : List Nat → Option (List (List Nat)))
    (fopen : List Nat → Option (List Nat)) (malloc : Nat → Bool) (frames : Nat → Frame)
    (frame_count : Nat) (entries₁ entries₂ : List (List Nat))
    (h₁ : opendir₁ ANIMATION_DIR = some entries₁) (h₂ : opendir₂ ANIMATION_DIR = some entries₂)
    (hperm : entries₁.Perm entries₂)
    (hq : (entries₁.filter (fun n => decide (n.headD NUL ≠ 46))).length ≤ MAX_FRAMES)
    (hnul : ∀ n ∈ entries₁, NUL ∉ n)
    (hret : (load_animation_frames ⟨opendir₁, fopen, malloc⟩ frames frame_count).ret = 1) :
    load_animation_frames ⟨opendir₂, fopen, malloc⟩ frames frame_count =
      load_animation_frames ⟨opendir₁, fopen, malloc⟩ frames frame_count := by
  have hfp : (entries₁.filter (fun n => decide (n.headD NUL ≠ 46))).Perm
      (entries₂.filter (fun n => decide (n.headD NUL ≠ 46))) := hperm.filter _
  have hs₁ : selected entries₁ = entries₁.filter (fun n => decide (n.headD NUL ≠ 46)) :=
    List.take_of_length_le hq
  have hs₂ : selected entries₂ = entries₂.filter (fun n => decide (n.headD NUL ≠ 46)) :=
    List.take_of_length_le (by rw [← hfp.length_eq]; exact hq)
  obtain ⟨g, hre, hg0, _, _⟩ :=
    load_animation_frames_success ⟨opendir₁, fopen, malloc⟩ frames frame_count entries₁ h₁ hret
  have hread₁ : (read_entries malloc entries₁ []).1 = true := by
    show (read_entries (Env.mk opendir₁ fopen malloc).malloc entries₁ []).1 = true
    rw [hre]
  have hread₂ : (read_entries malloc entries₂ []).1 = true := by
    rw [read_entries_fst] at hread₁ ⊢
    rw [← hfp.length_eq]
    exact hread₁
  have hg : qsort compare_filenames
      ((selected entries₂).map (snprintf_path MAX_FILENAME_LENGTH ANIMATION_DIR)) =
      qsort compare_filenames
        ((selected entries₁).map (snprintf_path MAX_FILENAME_LENGTH ANIMATION_DIR)) := by
    apply qsort_perm_eq
    · rw [hs₁, hs₂]
      exact (hfp.map _).symm
    · intro p hp
      obtain ⟨m, hm, rfl⟩ := List.mem_map.1 hp
      have hm2 : m ∈ entries₂ := (mem_selected entries₂ m hm).1
      exact snprintf_path_no_nul m (hnul m (hperm.mem_iff.2 hm2))
  rw [load_animation_frames_read ⟨opendir₁, fopen, malloc⟩ frames frame_count entries₁ h₁ hread₁,
    load_animation_frames_read ⟨opendir₂, fopen, malloc⟩ frames frame_count entries₂ h₂ hread₂,
    hg]
  have hlen : (entries₂.filter (fun n => decide (n.headD NUL ≠ 46))).length ≠ 0 := by
    have e := read_entries_of_fst malloc entries₁ hread₁
    have hre2 : read_entries malloc entries₁ [] = (true, g) := hre
    rw [hre2] at e
    have e2 := (Prod.mk.inj e).2
    rw [e2, List.length_map, hs₁, hfp.length_eq] at hg0
    exact hg0
  simp only [List.length_map, hs₁, hs₂, hfp.length_eq]
  rw [if_neg hlen, if_neg hlen]

/-- Witness of C15: the entries `b.txt`, `a.txt`, `c.txt` and the same entries reversed. -/
theorem load_animation_frames_deterministic_witness :
    [bytes "b.txt", bytes "a.txt", bytes "c.txt"].Perm
      [bytes "c.txt", bytes "a.txt", bytes "b.txt"] ∧
    (load_animation_frames
      ⟨fun _ => some [bytes "b.txt", bytes "a.txt", bytes "c.txt"], fun _ => some [],
        fun _ => true⟩ (const_frames 0) 0).ret = 1 ∧
    load_animation_frames
      ⟨fun _ => some [bytes "c.txt", bytes "a.txt", bytes "b.txt"], fun _ => some [],
        fun _ => true⟩ (const_frames 0) 0 =
    load_animation_frames
      ⟨fun _ => some [bytes "b.txt", bytes "a.txt", bytes "c.txt"], fun _ => some [],
        fun _ => true⟩ (const_frames 0) 0 :=
  ⟨List.reverse_perm [bytes "c.txt", bytes "a.txt", bytes "b.txt"], by decide,
    load_animation_frames_deterministic
      (fun _ => some [bytes "b.txt", bytes "a.txt", bytes "c.txt"])
      (fun _ => some [bytes "c.txt", bytes "a.txt", bytes "b.txt"])
      (fun _ => some []) (fun _ => true) (const_frames 0) 0
      [bytes "b.txt", bytes "a.txt", bytes "c.txt"]
      [bytes "c.txt", bytes "a.txt", bytes "b.txt"] rfl rfl
      (List.reverse_perm [bytes "c.txt", bytes "a.txt", bytes "b.txt"]) (by decide)
      (by decide) (by decide)⟩

/-! ## Normalisation of lines -/

theorem lines_eq_nil (s : List Nat) : lines s = [] ↔ s = [] := by
  cases s with
  | nil => simp [lines]
  | cons b t =>
    rw [lines]
    split
    · simp
    · cases lines t <;> simp

/-- One `fgets` call with room for the first line reads exactly that line. -/
theorem fgets_read_line (n : Nat) (s : List Nat) (l : List Nat) (ls : List (List Nat))
    (h : lines s = l :: ls) (hn : l.length ≤ n) :
    fgets_read n s = (l, (fgets_read n s).2) ∧ lines (fgets_read n s).2 = ls := by
  induction s generalizing n l ls with
  | nil => simp [lines] at h
  | cons b t ih =>
    rw [lines] at h
    by_cases hb : b = LF
    · rw [if_pos hb] at h
      obtain ⟨rfl, rfl⟩ := List.cons.inj h
      cases n with
      | zero => simp at hn
      | succ m =>
        rw [fgets_read, if_pos hb]
        exact ⟨rfl, rfl⟩
    · rw [if_neg hb] at h
      cases hl : lines t with
      | nil =>
        rw [hl] at h
        obtain ⟨rfl, rfl⟩ := List.cons.inj h
        have ht : t = [] := (lines_eq_nil t).1 hl
        subst ht
        cases n with
        | zero => simp at hn
        | succ m =>
          rw [fgets_read, if_neg hb]
          cases m <;> exact ⟨rfl, rfl⟩
      | cons l' ls' =>
        rw [hl] at h
        obtain ⟨rfl, rfl⟩ := List.cons.inj h
        cases n with
        | zero => simp at hn
        | succ m =>
          obtain ⟨h1, h2⟩ := ih m l' ls' hl (by simpa using hn)
          rw [fgets_read, if_neg hb]
          refine ⟨?_, h2⟩
          rw [h1]

/-- Under the bound on the lines, each `fgets` call of `load_frame` consumes one line. -/
theorem after_reads_lines (k : Nat) (s : List Nat)
    (hbound : ∀ l ∈ lines s, l.length ≤ TERMINAL_WIDTH * 2 - 1) :
    lines (after_reads k s) = (lines s).drop k := by
  induction k generalizing s with
  | zero => rfl
  | succ k ih =>
    rw [after_reads]
    cases hl : lines s with
    | nil =>
      have hs : s = [] := (lines_eq_nil s).1 hl
      subst hs
      have : (fgets_read (TERMINAL_WIDTH * 2 - 1) []).2 = [] := rfl
      rw [this, after_reads_nil]
      rfl
    | cons l ls =>
      have hread := (fgets_read_line (TERMINAL_WIDTH * 2 - 1) s l ls hl
        (hbound l (by rw [hl]; exact List.mem_cons_self _ _))).2
      rw [ih _ (by
        intro l' hl'
        rw [hread] at hl'
        exact hbound l' (by rw [hl]; exact List.mem_cons_of_mem _ hl')), hread]
      rfl

/-- The stripping loop leaves the length of the line without its trailing run of CR and LF
bytes. -/
theorem strip_line_endings_rdropWhile (l rest : List Nat) :
    (strip_line_endings (l ++ rest) l.length).2 =
      (l.rdropWhile (fun b => b == CR || b == LF)).length := by
  induction l using List.reverseRecOn generalizing rest with
  | nil => simp [strip_line_endings]
  | append_singleton l x ih =>
    have hget : (l ++ [x] ++ rest).getD l.length NUL = x := by
      rw [List.getD_eq_getElem?_getD, List.append_assoc,
        List.getElem?_append_right (Nat.le_refl _), Nat.sub_self]
      simp
    rw [List.length_append, List.length_singleton, strip_line_endings, hget]
    by_cases hx : x = LF ∨ x = CR
    · rw [if_pos hx]
      have hset : (l ++ [x] ++ rest).set l.length NUL = l ++ (NUL :: rest) := by
        rw [List.append_assoc, List.set_append_right _ _ (Nat.le_refl _), Nat.sub_self]
        rfl
      rw [hset, ih, List.rdropWhile_concat_pos]
      rcases hx with rfl | rfl <;> decide
    · rw [if_neg hx, List.rdropWhile_concat_neg]
      · simp
      · intro hp
        simp only [Bool.or_eq_true, beq_iff_eq] at hp
        exact hx hp.symm

theorem rdropWhile_getD (l : List Nat) (p : Nat → Bool) (c : Nat)
    (hc : c < (l.rdropWhile p).length) : (l.rdropWhile p).getD c NUL = l.getD c NUL := by
  obtain ⟨t, ht⟩ := List.rdropWhile_prefix p (l := l)
  conv_rhs => rw [← ht]
  simp only [List.getD_eq_getElem?_getD]
  rw [List.getElem?_append_left hc]

/-- The cells of the row built from a stream whose first line fits the read buffer and
holds no NUL. -/
theorem row_cell_line (s l : List Nat) (ls : List (List Nat)) (h : lines s = l :: ls)
    (hlen : l.length ≤ TERMINAL_WIDTH * 2 - 1) (hnul : NUL ∉ l) (c : Nat)
    (hc : c < TERMINAL_WIDTH) :
    row_cell s c =
      if c < (l.rdropWhile (fun b => b == CR || b == LF)).length then l.getD c NUL
      else SPACE := by
  have hread := (fgets_read_line (TERMINAL_WIDTH * 2 - 1) s l ls h hlen).1
  cases s with
  | nil => simp [lines] at h
  | cons b t =>
    simp only [row_cell, fgets]
    rw [hread]
    simp only
    rw [strlen_eq_length l (fun x hx e => hnul (e ▸ hx)), strip_line_endings_rdropWhile]
    by_cases hL : c < (l.rdropWhile (fun b => b == CR || b == LF)).length
    · rw [if_pos ⟨hL, hc⟩, if_pos hL]
      have hcl : c < l.length :=
        Nat.lt_of_lt_of_le hL (List.rdropWhile_prefix _ l).length_le
      simp only [List.getD_eq_getElem?_getD]
      rw [List.getElem?_append_left hcl]
    · rw [if_neg (fun h => hL h.1), if_pos hc, if_neg hL]

theorem normalised_row_length (l : List Nat) : (normalised_row l).length = TERMINAL_WIDTH := by
  simp only [normalised_row, List.length_append, List.length_replicate, List.length_take]
  omega

theorem normalised_row_getD (l : List Nat) (c : Nat) (hc : c < TERMINAL_WIDTH) :
    (normalised_row l).getD c NUL =
      if c < (l.rdropWhile (fun b => b == CR || b == LF)).length then l.getD c NUL
      else SPACE := by
  simp only [normalised_row, List.getD_eq_getElem?_getD]
  by_cases hL : c < (l.rdropWhile (fun b => b == CR || b == LF)).length
  · rw [if_pos hL, List.getElem?_append_left (by rw [List.length_take]; omega),
      List.getElem?_take_of_lt hc, ← List.getD_eq_getElem?_getD, rdropWhile_getD l _ c hL,
      List.getD_eq_getElem?_getD]
  · rw [if_neg hL, List.getElem?_append_right (by rw [List.length_take]; omega),
      List.getElem?_replicate, if_pos (by rw [List.length_take]; omega)]
    rfl

theorem mem_of_mem_lines (s l : List Nat) (hl : l ∈ lines s) (x : Nat) (hx : x ∈ l) :
    x ∈ s := by
  induction s generalizing l with
  | nil => simp [lines] at hl
  | cons b t ih =>
    rw [lines] at hl
    by_cases hb : b = LF
    · rw [if_pos hb] at hl
      rcases List.mem_cons.1 hl with rfl | hl
      · rw [List.mem_singleton.1 hx]
        exact List.mem_cons_self _ _
      · exact List.mem_cons_of_mem _ (ih l hl hx)
    · rw [if_neg hb] at hl
      cases hlt : lines t with
      | nil =>
        rw [hlt] at hl
        rw [List.mem_singleton.1 hl] at hx
        rw [List.mem_singleton.1 hx]
        exact List.mem_cons_self _ _
      | cons l' ls' =>
        rw [hlt] at hl
        rcases List.mem_cons.1 hl with rfl | hl
        · rcases List.mem_cons.1 hx with rfl | hx
          · exact List.mem_cons_self _ _
          · exact List.mem_cons_of_mem _ (ih l' (by rw [hlt]; exact List.mem_cons_self _ _) hx)
        · exact List.mem_cons_of_mem _ (ih l (by rw [hlt]; exact List.mem_cons_of_mem _ hl) hx)

/-- The rows of the frame loaded from a source without NUL whose lines fit the read buffer:
row `i` is built from line `i`, and is blank when there is no such line. -/
theorem load_frame_row_of_lines (fopen : List Nat → Option (List Nat))
    (filename file : List Nat) (frame : Frame) (h : fopen filename = some file)
    (hnul : NUL ∉ file) (hbound : ∀ l ∈ lines file, l.length ≤ TERMINAL_WIDTH * 2 - 1)
    (i : Nat) (hi : i < TERMINAL_HEIGHT) :
    (load_frame fopen filename frame).2.row i =
      match (lines file)[i]? with
      | some l => normalised_row l
      | none => List.replicate TERMINAL_WIDTH SPACE := by
  have hlines := after_reads_lines i file hbound
  have hcell : ∀ c, c < TERMINAL_WIDTH →
      (load_frame fopen filename frame).2.content i c = row_cell (after_reads i file) c :=
    fun c hc => load_frame_content fopen filename file frame h i c hi (Nat.le_of_lt hc)
  by_cases hlt : i < (lines file).length
  · rw [List.getElem?_eq_getElem hlt]
    simp only
    have hdrop : lines (after_reads i file) =
        (lines file)[i] :: (lines file).drop (i + 1) := by
      rw [hlines]
      exact List.drop_eq_getElem_cons hlt
    have hmem : (lines file)[i] ∈ lines file := List.getElem_mem _
    apply List.ext_getElem
    · rw [normalised_row_length]
      simp [Frame.row]
    · intro c h1 h2
      have hc : c < TERMINAL_WIDTH := by simpa [Frame.row] using h1
      simp only [Frame.row, List.getElem_map, List.getElem_range]
      rw [hcell c hc, row_cell_line _ _ _ hdrop (hbound _ hmem)
        (fun hn => hnul (mem_of_mem_lines file _ hmem NUL hn)) c hc,
        ← normalised_row_getD _ c hc, List.getD_eq_getElem?_getD, List.getElem?_eq_getElem h2]
      rfl
  · rw [List.getElem?_eq_none (by omega)]
    simp only
    have hnil : after_reads i file = [] := by
      rw [← lines_eq_nil, hlines, List.drop_eq_nil_iff]
      omega
    apply List.ext_getElem
    · simp [Frame.row]
    · intro c h1 h2
      have hc : c < TERMINAL_WIDTH := by simpa [Frame.row] using h1
      simp only [Frame.row, List.getElem_map, List.getElem_range, List.getElem_replicate]
      rw [hcell c hc, hnil, row_cell_nil, if_pos hc]

/-- C17: for a source that can be opened, holds no NUL byte, and whose lines, line feed
included, are at most 159 bytes long, `load_frame` succeeds; row `i` is line `i` without its
whole trailing run of CR and LF bytes, cut to 80 bytes and padded with spaces to 80 cells,
for every line `i` below 24; the rows from the number of lines on are 80 spaces; and the
lines from index 24 on have no effect: a source with the same first 24 lines gives the same
rows. -/
theorem load_frame_normalises (fopen : List Nat → Option (List Nat))
    (filename file : List Nat) (frame : Frame) (h : fopen filename = some file)
    (hnul : NUL ∉ file) (hbound : ∀ l ∈ lines file, l.length ≤ TERMINAL_WIDTH * 2 - 1) :
    (load_frame fopen filename frame).1 = 1 ∧
    (∀ i (hi : i < (lines file).length), i < TERMINAL_HEIGHT →
      (load_frame fopen filename frame).2.row i = normalised_row ((lines file).get ⟨i, hi⟩)) ∧
    (∀ i, (lines file).length ≤ i → i < TERMINAL_HEIGHT →
      (load_frame fopen filename frame).2.row i = List.replicate TERMINAL_WIDTH SPACE) ∧
    (∀ (other : List Nat) (frame₂ : Frame), NUL ∉ other →
      (∀ l ∈ lines other, l.length ≤ TERMINAL_WIDTH * 2 - 1) →
      (lines other).take TERMINAL_HEIGHT = (lines file).take TERMINAL_HEIGHT →
      ∀ i, i < TERMINAL_HEIGHT →
        (load_frame (one_file other) filename frame₂).2.row i =
          (load_frame fopen filename frame).2.row i) := by
  refine ⟨by rw [load_frame, h], ?_, ?_, ?_⟩
  · intro i hi h24
    rw [load_frame_row_of_lines fopen filename file frame h hnul hbound i h24,
      List.getElem?_eq_getElem hi]
    rfl
  · intro i hi h24
    rw [load_frame_row_of_lines fopen filename file frame h hnul hbound i h24,
      List.getElem?_eq_none hi]
  · intro other frame₂ hnul₂ hbound₂ htake i h24
    rw [load_frame_row_of_lines fopen filename file frame h hnul hbound i h24,
      load_frame_row_of_lines (one_file other) filename other frame₂ rfl hnul₂ hbound₂ i h24]
    have e : (lines other)[i]? = (lines file)[i]? := by
      have e₁ := List.getElem?_take_of_lt (l := lines other) h24
      have e₂ := List.getElem?_take_of_lt (l := lines file) h24
      rw [← e₁, ← e₂, htake]
    rw [e]

/-- Witness of C17: the source `o`, CR, LF, `x`: row 0 is `o` and 79 spaces. -/
theorem load_frame_normalises_witness :
    one_file [111, 13, 10, 120] (bytes "anim/a.txt") = some [111, 13, 10, 120] ∧
    NUL ∉ [111, 13, 10, 120] ∧
    (∀ l ∈ lines [111, 13, 10, 120], l.length ≤ TERMINAL_WIDTH * 2 - 1) ∧
    (load_frame (one_file [111, 13, 10, 120]) (bytes "anim/a.txt") (const_frame 0)).2.row 0 =
      normalised_row [111, 13, 10] :=
  ⟨rfl, by decide, by decide,
    (load_frame_normalises (one_file [111, 13, 10, 120]) (bytes "anim/a.txt")
      [111, 13, 10, 120] (const_frame 0) rfl (by decide) (by decide)).2.1 0 (by decide)
      (by decide)⟩

end Stickman
